import Mathlib

/-!
Verification of the llode streaming tool-call protocol engine (src/llode.py).

Python strings are modelled as `List Char`; the library string operations used
by the source (`str.find`, `str.strip`, `str.split`, string joining, slicing,
`startswith`/`endswith`) are given faithful executable counterparts.  The
incremental block parser `MIMEToolCallParser`, the body decoder
`parse_mime_tool_call`, the dispatcher `execute_tool` and the relevant parts of
the orchestrator `stream_response` are then translated statement by statement.
Python `while` loops are rendered as fuel-indexed recursions; the fuel supplied
at each call site strictly dominates the number of iterations the Python loop
can make, and all general theorems are proved for every fuel value where
possible.
-/

set_option maxRecDepth 16000

namespace Llode

/-- decidable equality of fallible results, used to evaluate the decoder on
concrete inputs. -/
instance {ε α : Type} [DecidableEq ε] [DecidableEq α] : DecidableEq (Except ε α) := fun x y =>
  match x, y with
  | .error a, .error b =>
    if h : a = b then isTrue (by rw [h])
    else isFalse (fun hh => h (by injection hh))
  | .ok a, .ok b =>
    if h : a = b then isTrue (by rw [h])
    else isFalse (fun hh => h (by injection hh))
  | .error _, .ok _ => isFalse (fun hh => Except.noConfusion hh)
  | .ok _, .error _ => isFalse (fun hh => Except.noConfusion hh)

/-- whitespace test covering the characters the source ever strips
(`str.strip` on ASCII space, newline, tab, carriage return). -/
def ws (c : Char) : Bool :=
  c == ' ' || c == '\t' || c == '\n' || c == '\x0b' || c == '\x0c' || c == '\r'
    || c == '\x1c' || c == '\x1d' || c == '\x1e' || c == '\x1f'
    || c == '\x85' || c == '\xa0' || c == '\u1680'
    || ('\u2000' ≤ c && c ≤ '\u200a')
    || c == '\u2028' || c == '\u2029' || c == '\u202f' || c == '\u205f'
    || c == '\u3000'

/-- Python `str.strip()`: drop whitespace from both ends. -/
def pyStrip (l : List Char) : List Char :=
  ((l.dropWhile ws).reverse.dropWhile ws).reverse

/-- Python `str.startswith` on our char-list strings. -/
def pfx : List Char → List Char → Bool
  | [], _ => true
  | _ :: _, [] => false
  | a :: p, b :: l => (a == b) && pfx p l

/-- Python `str.endswith`. -/
def sfx (p l : List Char) : Bool :=
  pfx p.reverse l.reverse

/-- helper for `pyFind`: scan the suffix, returning the absolute index of the
first occurrence of the needle. -/
def pyFindAux (n : List Char) : List Char → Nat → Option Nat
  | [], i => if pfx n [] then some i else none
  | c :: t, i => if pfx n (c :: t) then some i else pyFindAux n t (i + 1)

/-- Python `haystack.find(needle, start)`; `none` models the -1 result. -/
def pyFind (h n : List Char) (s : Nat) : Option Nat :=
  pyFindAux n (h.drop s) s

/-- Python `str.split('\n')` (no collapsing: splitting the empty string gives
one empty field). -/
def splitNl : List Char → List (List Char)
  | [] => [[]]
  | c :: t =>
    if c = '\n' then [] :: splitNl t
    else
      match splitNl t with
      | [] => [[c]]
      | h :: r => (c :: h) :: r

/-- Python joining a list of lines with newline separators. -/
def joinNl : List (List Char) → List Char
  | [] => []
  | [l] => l
  | l :: r => l ++ '\n' :: joinNl r

/- ------------------------------------------------------------------ -/
/- Block parser: class MIMEToolCallParser (src/llode.py lines 1199-1280) -/
/- ------------------------------------------------------------------ -/

/-- literal begin marker `MIMEToolCallParser.TOOL_BEGIN`. -/
def TOOL_BEGIN : List Char := "--TOOL_CALL_BEGIN".toList

/-- literal end marker `MIMEToolCallParser.TOOL_END`. -/
def TOOL_END : List Char := "--TOOL_CALL_END".toList

/-- mutable state of one MIMEToolCallParser instance
(`self.buffer`, `self.in_tool`, `self.nesting_depth`). -/
structure ParserState where
  buffer : List Char
  in_tool : Bool
  nesting_depth : Int
deriving DecidableEq, Repr

/-- state of a freshly constructed parser (`__init__`). -/
def initState : ParserState := ⟨[], false, 0⟩

/-- one event of `feed`: `(tool_call_content | None, preceding_text)`. -/
abbrev Ev : Type := Option (List Char) × List Char

/-- result of the inner `while True` scan of `feed` while `in_tool`:
either a completed block together with the remaining buffer, or the updated
nesting depth when no end marker is in sight (`break` with `in_tool` still
set). -/
inductive ScanRes where
  | emit (block rest : List Char)
  | wait (d : Int)
deriving DecidableEq, Repr

/-- the inner `while True` loop of `MIMEToolCallParser.feed`
(src/llode.py lines 1241-1266): scan from `search_start` for nested begin
markers and the matching end marker. -/
def innerScan : Nat → List Char → Int → Nat → ScanRes
  | 0, _, d, _ => .wait d
  | fuel + 1, buf, d, ss =>
    match pyFind buf TOOL_END ss with
    | none => .wait d
    | some ne =>
      match pyFind buf TOOL_BEGIN ss with
      | some nb =>
        if nb < ne then
          innerScan fuel buf (d + 1) (nb + TOOL_BEGIN.length)
        else
          if d - 1 = 0 then
            .emit (buf.take (ne + TOOL_END.length)) (buf.drop (ne + TOOL_END.length))
          else
            innerScan fuel buf (d - 1) (ne + TOOL_END.length)
      | none =>
        if d - 1 = 0 then
          .emit (buf.take (ne + TOOL_END.length)) (buf.drop (ne + TOOL_END.length))
        else
          innerScan fuel buf (d - 1) (ne + TOOL_END.length)

/-- the outer `while True` loop of `MIMEToolCallParser.feed`
(src/llode.py lines 1219-1270). -/
def feedLoop : Nat → ParserState → List Ev → ParserState × List Ev
  | 0, st, acc => (st, acc)
  | fuel + 1, st, acc =>
    if st.in_tool then
      match innerScan (st.buffer.length + 1) st.buffer st.nesting_depth TOOL_BEGIN.length with
      | .emit block rest =>
        feedLoop fuel ⟨rest, false, 0⟩ (acc ++ [((some block : Option (List Char)), [])])
      | .wait d => (⟨st.buffer, true, d⟩, acc)
    else
      match pyFind st.buffer TOOL_BEGIN 0 with
      | some idx =>
        let preceding := st.buffer.take idx
        let acc2 := if preceding.isEmpty then acc else acc ++ [((none : Option (List Char)), preceding)]
        feedLoop fuel ⟨st.buffer.drop idx, true, 1⟩ acc2
      | none =>
        if TOOL_BEGIN.length < st.buffer.length then
          (⟨st.buffer.drop (st.buffer.length - TOOL_BEGIN.length), false, st.nesting_depth⟩,
            acc ++ [((none : Option (List Char)), st.buffer.take (st.buffer.length - TOOL_BEGIN.length))])
        else
          (st, acc)

/-- `MIMEToolCallParser.feed` (src/llode.py lines 1210-1272).  The fuel
`buffer.length + 2` strictly dominates the number of iterations the Python
loop can make: every two consecutive iterations either terminate or consume at
least one buffered character. -/
def feed (st : ParserState) (text : List Char) : ParserState × List Ev :=
  let st2 : ParserState := ⟨st.buffer ++ text, st.in_tool, st.nesting_depth⟩
  feedLoop (st2.buffer.length + 2) st2 []

/-- `MIMEToolCallParser.flush` (src/llode.py lines 1274-1280): return the
buffered text and reset the parser. -/
def flush (st : ParserState) : List Char × ParserState :=
  (st.buffer, ⟨[], false, 0⟩)

/-- feed a list of chunks in sequence, collecting all events in order. -/
def feedMany : ParserState → List (List Char) → ParserState × List Ev
  | st, [] => (st, [])
  | st, c :: cs =>
    ((feedMany (feed st c).1 cs).1, (feed st c).2 ++ (feedMany (feed st c).1 cs).2)

/-- text content carried by one event: a block event contributes its verbatim
text, a plain-text event its text. -/
def evText (e : Ev) : List Char :=
  match e.1 with
  | some b => b ++ e.2
  | none => e.2

/-- concatenation, in emission order, of the text of a list of events. -/
def evsText (evs : List Ev) : List Char :=
  (evs.map evText).flatten

/-- the state invariant maintained by the parser: while inside a block the
depth is at least 1, outside it is exactly 0. -/
def parserInv (st : ParserState) : Prop :=
  (st.in_tool = true → 1 ≤ st.nesting_depth) ∧ (st.in_tool = false → st.nesting_depth = 0)

/-- `n` concatenated copies of a string. -/
def repL (l : List Char) (n : Nat) : List Char :=
  (List.replicate n l).flatten

/-- the canonical nested input family: `n` begin markers immediately followed
by `n` end markers. -/
def famBuf (n : Nat) : List Char :=
  repL TOOL_BEGIN n ++ repL TOOL_END n

/-- a block with `k` nested begin markers inside the outer one, closed by the
structurally matching sequence of end markers. -/
def famInput (k : Nat) : List Char :=
  famBuf (k + 1)

/-- length of a marker: `true` stands for a begin marker, `false` for an end
marker. -/
def mlen : Bool → Nat
  | true => TOOL_BEGIN.length
  | false => TOOL_END.length

/-- the text of one step inside a block: filler text followed by a begin or
end marker. -/
def stepText (s : List Char × Bool) : List Char :=
  s.1 ++ (if s.2 then TOOL_BEGIN else TOOL_END)

/-- a general nested block: the opening begin marker followed by alternating
filler text and inner begin/end markers as described by `steps`.  The number
of `true` entries of `steps` is the number of nested begin-marker occurrences
inside the block. -/
def nestedBlk (steps : List (List Char × Bool)) : List Char :=
  TOOL_BEGIN ++ (steps.map stepText).flatten

/-- start position and kind of every marker of a step list laid out from
position `p` (each filler precedes its marker). -/
def markerPos (p : Nat) : List (List Char × Bool) → List (Nat × Bool)
  | [] => []
  | s :: rest => (p + s.1.length, s.2) :: markerPos (p + s.1.length + mlen s.2) rest

/-- position right after the last marker of a step list laid out from `p`. -/
def endPos (p : Nat) : List (List Char × Bool) → Nat
  | [] => p
  | s :: rest => endPos (p + s.1.length + mlen s.2) rest

/-- nesting depth after processing a sequence of begin (`true`) / end
(`false`) markers starting from depth `d`. -/
def dAfter (d : Int) : List Bool → Int
  | [] => d
  | b :: bs => dAfter (if b then d + 1 else d - 1) bs

/- ------------------------------------------------------------------ -/
/- Body decoder: parse_mime_tool_call (src/llode.py lines 1283-1387)    -/
/- ------------------------------------------------------------------ -/

/-- Python truthiness of an optional string (`if boundary_id`,
`if param_name`, `if not tool_name`). -/
def truthyS : Option (List Char) → Bool
  | none => false
  | some l => !l.isEmpty

/-- the header loop of `parse_mime_tool_call` (src/llode.py lines 1300-1308):
returns the last `Boundary-ID` value seen and `header_end` (which stays 0 when
the loop never hits the `break`). -/
def headerScan : List (List Char) → Nat → Option (List Char) → Option (List Char) × Nat
  | [], _, bid => (bid, 0)
  | l :: rest, i, bid =>
    let ls := pyStrip l
    if pfx ("Boundary-ID:".toList) ls then
      headerScan rest (i + 1) (some (pyStrip (ls.drop 12)))
    else
      if ls.isEmpty && truthyS bid then (bid, i + 1)
      else headerScan rest (i + 1) bid

/-- the boundary-splitting `while True` loop of `parse_mime_tool_call`
(src/llode.py lines 1322-1344). -/
def partsLoop (bm be : List Char) : Nat → List Char → Nat → List (List Char) → List (List Char)
  | 0, _, _, acc => acc
  | fuel + 1, body, pos, acc =>
    match pyFind body bm pos with
    | none => acc
    | some nb =>
      if (body.drop nb).take be.length = be then acc
      else
        let partStart := nb + bm.length
        let part :=
          match pyFind body bm partStart with
          | none => body.drop partStart
          | some np => (body.drop partStart).take (np - partStart)
        partsLoop bm be fuel body partStart (acc ++ [part])

/-- the model of `re.search(r'name="([^"]+)"', line)` used at
src/llode.py line 1364: try each start position from the left; at a position
where the literal `name="` matches, greedily capture non-quote characters and
require a closing quote and a non-empty capture, otherwise resume at the next
position. -/
def reSearchName : List Char → Option (List Char)
  | [] => none
  | l@(_ :: t) =>
    if pfx ("name=\"".toList) l then
      let rest := l.drop 6
      let cap := rest.takeWhile (fun c => !(c == '"'))
      if !cap.isEmpty && cap.length < rest.length then some cap
      else reSearchName t
    else reSearchName t

/-- the per-part header loop of `parse_mime_tool_call`
(src/llode.py lines 1360-1369): find the declared parameter name and the index
of the first content line (`content_start` stays 0 when the loop never hits
the `break`). -/
def partScan : List (List Char) → Nat → Option (List Char) → Option (List Char) × Nat
  | [], _, pn => (pn, 0)
  | l :: rest, i, pn =>
    let ls := pyStrip l
    if pfx ("Content-Disposition:".toList) ls then
      match reSearchName ls with
      | some nm => partScan rest (i + 1) (some nm)
      | none => partScan rest (i + 1) pn
    else
      if ls.isEmpty && truthyS pn then (pn, i + 1)
      else partScan rest (i + 1) pn

/-- the trailing-blank-line pop of `parse_mime_tool_call`
(src/llode.py lines 1375-1376): `while value_lines and
value_lines[-1].strip() == '': value_lines.pop()`. -/
def popTrailing (L : List (List Char)) : List (List Char) :=
  (L.reverse.dropWhile (fun l => (pyStrip l).isEmpty)).reverse

/-- insertion into the Python dict `params` (insertion-ordered, assignment
overwrites in place). -/
def dictInsert : List (List Char × List Char) → List Char → List Char → List (List Char × List Char)
  | [], k, v => [(k, v)]
  | (k0, v0) :: rest, k, v =>
    if k0 = k then (k0, v) :: rest
    else (k0, v0) :: dictInsert rest k v

/-- the per-part loop of `parse_mime_tool_call` (src/llode.py lines 1350-1382),
folding each part into the accumulated `tool_name` and `params`. -/
def foldParts : List (List Char) → Option (List Char) → List (List Char × List Char) →
    Option (List Char) × List (List Char × List Char)
  | [], tn, ps => (tn, ps)
  | part0 :: rest, tn, ps =>
    let part := pyStrip part0
    if part.isEmpty then foldParts rest tn ps
    else
      let lns := splitNl part
      let sc := partScan lns 0 none
      if truthyS sc.1 then
        let valueLines := popTrailing (lns.drop sc.2)
        let value := joinNl valueLines
        let nm := sc.1.getD []
        if nm = ("tool_name".toList) then foldParts rest (some (pyStrip value)) ps
        else foldParts rest tn (dictInsert ps nm value)
      else foldParts rest tn ps

/-- the marker-stripping preamble of `parse_mime_tool_call`
(src/llode.py lines 1289-1293): strip, remove a leading `TOOL_BEGIN` and a
trailing `TOOL_END`, stripping again after each removal. -/
def pmtcContent (tool_content : List Char) : List Char :=
  let content0 := pyStrip tool_content
  let content1 :=
    if pfx TOOL_BEGIN content0 then pyStrip (content0.drop TOOL_BEGIN.length) else content0
  if sfx TOOL_END content1 then pyStrip (content1.take (content1.length - TOOL_END.length))
  else content1

/-- the header scan of `parse_mime_tool_call` applied to the stripped content:
`(boundary_id, header_end)`. -/
def pmtcHeader (tool_content : List Char) : Option (List Char) × Nat :=
  headerScan (splitNl (pmtcContent tool_content)) 0 none

/-- the body split and per-part fold of `parse_mime_tool_call`
(src/llode.py lines 1313-1382): `(tool_name, params)` before the final
validation. -/
def pmtcResult (tool_content : List Char) :
    Option (List Char) × List (List Char × List Char) :=
  let hdr := pmtcHeader tool_content
  let body := joinNl ((splitNl (pmtcContent tool_content)).drop hdr.2)
  let bm := ("--".toList) ++ hdr.1.getD []
  let be := bm ++ ("--".toList)
  foldParts (partsLoop bm be (body.length + 1) body 0 []) none []

/-- `parse_mime_tool_call` (src/llode.py lines 1283-1387).  The two `raise
ValueError` sites become `Except.error` with the exact messages. -/
def parse_mime_tool_call (tool_content : List Char) :
    Except (List Char) (List Char × List (List Char × List Char)) :=
  if !truthyS (pmtcHeader tool_content).1 then
    .error ("Missing Boundary-ID in tool call".toList)
  else
    if !truthyS (pmtcResult tool_content).1 then
      .error ("Missing tool_name in tool call".toList)
    else .ok ((pmtcResult tool_content).1.getD [], (pmtcResult tool_content).2)

/- ------------------------------------------------------------------ -/
/- Wire-format encoder (spec-modelled)                                  -/
/- ------------------------------------------------------------------ -/

/-- Modelled from the spec: one parameter part of the multipart-with-identifier
wire format (spec section 4.2 and the TOOL CALL FORMAT shown in the system
prompt, src/llode.py lines 150-168).  The encoder itself is produced by the
language model and is not code of the repository. -/
def encodePart (bid nm v : List Char) : List Char :=
  ("--".toList) ++ bid ++ ("\nContent-Disposition: param; name=\"".toList) ++ nm ++
    ("\"\n\n".toList) ++ v ++ ("\n".toList)

/-- Modelled from the spec: a complete tool-call block in the
multipart-with-identifier wire format, with the declared boundary identifier
`bid`, tool name `tn` and ordered parameter map `ps`. -/
def encodeToolCall (bid tn : List Char) (ps : List (List Char × List Char)) : List Char :=
  ("--TOOL_CALL_BEGIN\nContent-Type: tool-call\nBoundary-ID: ".toList) ++ bid ++
    ("\n\n".toList) ++ encodePart bid ("tool_name".toList) tn ++
    (ps.map (fun p => encodePart bid p.1 p.2)).flatten ++
    ("--".toList) ++ bid ++ ("--\n--TOOL_CALL_END".toList)

/-- characters free of every structural role in the wire format: not
whitespace, not a dash, not a double quote.  Used as the well-formedness
hypothesis on boundary identifiers and parameter names (the system prompt
demands alphanumeric identifiers, src/llode.py line 172). -/
def cleanChar (c : Char) : Prop :=
  ws c = false ∧ c ≠ '-' ∧ c ≠ '"'

instance (c : Char) : Decidable (cleanChar c) := by
  unfold cleanChar
  infer_instance

/-- executable substring test: does the needle occur anywhere in the
haystack? -/
def containsSub (needle hay : List Char) : Bool :=
  (List.range (hay.length + 1)).any (fun i => pfx needle (hay.drop i))

/-- no two adjacent dashes anywhere in the string. -/
def noDDb : List Char → Bool
  | [] => true
  | [_] => true
  | a :: b :: t => !(a == '-' && b == '-') && noDDb (b :: t)

/-- the Content-Disposition header line the encoder writes for a parameter. -/
def CDlineText (nm : List Char) : List Char :=
  ("Content-Disposition: param; name=\"".toList) ++ nm ++ ("\"".toList)

/-- the text of one encoded part after its boundary marker: newline, the
Content-Disposition line, a blank line, the verbatim value, a final
newline. -/
def tailText (nm v : List Char) : List Char :=
  ("\n".toList) ++ CDlineText nm ++ ("\n\n".toList) ++ v ++ ("\n".toList)

/-- the shape of the encoded body as consumed by the boundary-splitting loop:
each part tail preceded by the boundary marker, closed by the distinguished
terminator `marker ++ "--"`. -/
def seqText (bm : List Char) : List (List Char) → List Char
  | [] => bm ++ ("--".toList)
  | t :: ts => bm ++ t ++ seqText bm ts

/- ------------------------------------------------------------------ -/
/- Dispatcher: execute_tool (src/llode.py lines 1439-1491)              -/
/- ------------------------------------------------------------------ -/

/-- a registered tool handler: maps the decoded parameter list to a result
string or raises (Python exceptions become `Except.error` with `str(e)`). -/
abbrev Handler : Type := List (List Char × List Char) → Except (List Char) (List Char)

/-- the tool registry `tools.tools` as consulted by `execute_tool`. -/
abbrev Registry : Type := List Char → Option Handler

/-- the hard-coded gate list of `execute_tool` (src/llode.py line 1445). -/
def modifying_tools : List (List Char) :=
  [("file_edit".toList), ("file_move".toList), ("file_delete".toList),
    ("search_replace".toList), ("git_add".toList), ("git_commit".toList)]

/-- the refusal message of the planning-mode gate (src/llode.py line 1447). -/
def planningRefusal (toolName : List Char) : List Char :=
  ("❌ ".toList) ++ toolName ++ (" is disabled in planning mode. Use /plan to toggle planning mode.".toList)

/-- `execute_tool` (src/llode.py lines 1439-1491), with the console rendering
dropped: decode the block, apply the planning-mode gate, resolve the registry,
invoke the handler; any exception (decode failure or handler failure) is
caught by the outer `except` and rendered as an error string. -/
def execute_tool (reg : Registry) (planning_mode : Bool) (tool_content : List Char) : List Char :=
  match parse_mime_tool_call tool_content with
  | .error e => ("❌ Tool execution error: ".toList) ++ e
  | .ok (toolName, toolArgs) =>
    if planning_mode && modifying_tools.contains toolName then planningRefusal toolName
    else
      match reg toolName with
      | none => ("❌ Unknown tool: ".toList) ++ toolName
      | some h =>
        match h toolArgs with
        | .ok r => r
        | .error e => ("❌ Tool execution error: ".toList) ++ e

/- ------------------------------------------------------------------ -/
/- Orchestrator: stream_response (src/llode.py lines 1549-1672)         -/
/- ------------------------------------------------------------------ -/

/-- the error test applied to a tool result inside the streaming loop
(src/llode.py line 1626: `tool_result.startswith("❌")`). -/
def interruptsStream (out : List Char) : Bool :=
  pfx ("❌".toList) out

/-- the status classification of a tool output when it is folded into the
conversation (src/llode.py line 1660). -/
def toolResultStatus (out : List Char) : List Char :=
  if !pfx ("❌".toList) out then ("success".toList) else ("error".toList)

/-- accumulated state of one `stream_response` invocation while consuming the
streamed response (src/llode.py lines 1572-1575). -/
structure TurnAcc where
  parser : ParserState
  fullResp : List Char
  toolOutputs : List (List Char × List Char)
  display : List Char
deriving DecidableEq

/-- the `for tool_content, text in results` loop (src/llode.py lines
1614-1633).  On an error result the Python `break` leaves this inner loop
only: the remaining events of the current chunk are dropped, but the enclosing
line loop continues with the next chunk. -/
def processEvents (reg : Registry) (pm : Bool) : List Ev → TurnAcc → TurnAcc
  | [], acc => acc
  | e :: rest, acc =>
    match e.1 with
    | some tc =>
      let r := execute_tool reg pm tc
      let acc2 : TurnAcc :=
        { acc with toolOutputs := acc.toolOutputs ++ [(tc, r)], display := [] }
      if interruptsStream r then acc2
      else processEvents reg pm rest acc2
    | none => processEvents reg pm rest { acc with display := acc.display ++ e.2 }

/-- handling of one streamed content delta (src/llode.py lines 1609-1633):
extend `full_response`, feed the parser, process the returned events. -/
def processChunk (reg : Registry) (pm : Bool) (acc : TurnAcc) (content : List Char) : TurnAcc :=
  let fr := feed acc.parser content
  processEvents reg pm fr.2
    { acc with parser := fr.1, fullResp := acc.fullResp ++ content }

/-- consumption of a whole streamed response given as the list of its content
deltas (src/llode.py lines 1584-1649), including the final `parser.flush()`
whose non-blank remainder is appended to the display buffer. -/
def streamTurn (reg : Registry) (pm : Bool) (chunks : List (List Char)) : TurnAcc :=
  let acc := chunks.foldl (processChunk reg pm) ⟨initState, [], [], []⟩
  let fl := flush acc.parser
  { acc with
    parser := fl.2,
    display := if (pyStrip fl.1).isEmpty then acc.display else acc.display ++ fl.1 }

/-- lowercase hexadecimal digit, as produced by Python json escapes. -/
def hexDigit (n : Nat) : Char :=
  if n < 10 then Char.ofNat (48 + n) else Char.ofNat (87 + n)

/-- four-digit lowercase hexadecimal rendering of a code unit. -/
def hex4 (n : Nat) : List Char :=
  [hexDigit (n / 4096 % 16), hexDigit (n / 256 % 16), hexDigit (n / 16 % 16), hexDigit (n % 16)]

/-- the escape of one character in a Python `json.dumps` string
(default `ensure_ascii=True`). -/
def jsonEscChar (c : Char) : List Char :=
  if c = '"' then ("\\\"".toList)
  else if c = '\\' then ("\\\\".toList)
  else if c = '\n' then ("\\n".toList)
  else if c = '\t' then ("\\t".toList)
  else if c = '\r' then ("\\r".toList)
  else if c = Char.ofNat 8 then ("\\b".toList)
  else if c = Char.ofNat 12 then ("\\f".toList)
  else if c.toNat < 32 then ("\\u".toList) ++ hex4 c.toNat
  else if c.toNat < 127 then [c]
  else if c.toNat < 65536 then ("\\u".toList) ++ hex4 c.toNat
  else
    ("\\u".toList) ++ hex4 (55296 + (c.toNat - 65536) / 1024) ++
      ("\\u".toList) ++ hex4 (56320 + (c.toNat - 65536) % 1024)

/-- Python json string escaping applied to a whole string. -/
def jsonEscape (l : List Char) : List Char :=
  (l.map jsonEscChar).flatten

/-- `json.dumps(tool_result, indent=2)` for the two-field dict built at
src/llode.py lines 1659-1662 (keys in insertion order: status, output). -/
def toolResultJson (out : List Char) : List Char :=
  ("\x7b\n  \"status\": \"".toList) ++ toolResultStatus out ++
    ("\",\n  \"output\": \"".toList) ++ jsonEscape out ++ ("\"\n\x7d".toList)

/-- the user message recording one tool result (src/llode.py lines 1664-1667). -/
def toolResultMessage (out : List Char) : List Char :=
  ("Tool output:\n".toList) ++ toolResultJson out

/-- a conversation message `(role, content)`. -/
abbrev Msg : Type := List Char × List Char

/-- the follow-up stage of `stream_response` (src/llode.py lines 1651-1672):
when at least one tool call was executed, append per call the raw block as an
assistant message and the rendered `ToolResult` as a user message, then issue
exactly one recursive follow-up request (the returned flag); with no tool
calls the turn is terminal. -/
def afterStream (messages : List Msg) (outs : List (List Char × List Char)) :
    List Msg × Bool :=
  if outs.isEmpty then (messages, false)
  else
    (outs.foldl
      (fun ms p =>
        ms ++ [(("assistant".toList), p.1), (("user".toList), toolResultMessage p.2)])
      messages, true)

/- ------------------------------------------------------------------ -/
/- Concrete fixtures used by the evaluation theorems                    -/
/- ------------------------------------------------------------------ -/

/-- a concrete session registry fixture: the file-writing tools `todo_write`
and `file_edit` are registered with handlers returning their usual success
strings (src/llode.py lines 709-713 for `todo_write`); nothing else is
registered. -/
def regFix : Registry := fun n =>
  if n = ("todo_write".toList) then
    some (fun _ => .ok ("Todo list updated successfully".toList))
  else if n = ("file_edit".toList) then
    some (fun _ => .ok ("edited".toList))
  else none

/-- a concrete well-formed block calling the unregistered tool `nope`. -/
def blkNope : List Char :=
  ("--TOOL_CALL_BEGIN\nContent-Type: tool-call\nBoundary-ID: bq7\n\n--bq7\nContent-Disposition: param; name=\"tool_name\"\n\nnope\n--bq7\nContent-Disposition: param; name=\"a\"\n\n1\n--bq7--\n--TOOL_CALL_END".toList)

/-- a concrete well-formed block calling `todo_write`. -/
def blkTodo : List Char :=
  ("--TOOL_CALL_BEGIN\nContent-Type: tool-call\nBoundary-ID: bq8\n\n--bq8\nContent-Disposition: param; name=\"tool_name\"\n\ntodo_write\n--bq8\nContent-Disposition: param; name=\"content\"\n\ny\n--bq8--\n--TOOL_CALL_END".toList)

/-- a concrete well-formed block calling `file_edit`. -/
def blkEdit : List Char :=
  ("--TOOL_CALL_BEGIN\nContent-Type: tool-call\nBoundary-ID: bq9\n\n--bq9\nContent-Disposition: param; name=\"tool_name\"\n\nfile_edit\n--bq9\nContent-Disposition: param; name=\"path\"\n\na\n--bq9--\n--TOOL_CALL_END".toList)

/-- a concrete block containing a structurally inconsistent parameter section
(its section after the tool name has no `Content-Disposition` name
declaration). -/
def blkMalformed : List Char :=
  ("--TOOL_CALL_BEGIN\nContent-Type: tool-call\nBoundary-ID: zz\n\n--zz\nContent-Disposition: param; name=\"tool_name\"\n\nread\n--zz\nno header here\n\nstuff\n--zz--\n--TOOL_CALL_END".toList)

end Llode

namespace Llode

/- ------------------------------------------------------------------ -/
/- Helper lemmas                                                        -/
/- ------------------------------------------------------------------ -/

theorem foldl_append_pairs {α β : Type} (f : α → List β) :
    ∀ (l : List α) (ms : List β),
      l.foldl (fun acc p => acc ++ f p) ms = ms ++ (l.map f).flatten := by
  intro l
  induction l with
  | nil => intro ms; simp
  | cons a t ih => intro ms; simp [List.foldl_cons, ih]

theorem evsText_append (a b : List Ev) : evsText (a ++ b) = evsText a ++ evsText b := by
  simp [evsText]

theorem innerScan_emit_conserves :
    ∀ (fuel : Nat) (buf : List Char) (d : Int) (ss : Nat) (block rest : List Char),
      innerScan fuel buf d ss = .emit block rest → block ++ rest = buf := by
  intro fuel
  induction fuel with
  | zero =>
    intro buf d ss block rest h
    exact absurd h (by simp [innerScan])
  | succ n ih =>
    intro buf d ss block rest h
    unfold innerScan at h
    cases hE : pyFind buf TOOL_END ss with
    | none => rw [hE] at h; exact absurd h (by simp)
    | some ne =>
      rw [hE] at h
      dsimp only at h
      cases hB : pyFind buf TOOL_BEGIN ss with
      | some nb =>
        rw [hB] at h
        dsimp only at h
        by_cases hlt : nb < ne
        · rw [if_pos hlt] at h
          exact ih _ _ _ _ _ h
        · rw [if_neg hlt] at h
          by_cases hz : d - 1 = 0
          · rw [if_pos hz] at h
            injection h with h1 h2
            rw [← h1, ← h2]
            exact List.take_append_drop _ _
          · rw [if_neg hz] at h
            exact ih _ _ _ _ _ h
      | none =>
        rw [hB] at h
        dsimp only at h
        by_cases hz : d - 1 = 0
        · rw [if_pos hz] at h
          injection h with h1 h2
          rw [← h1, ← h2]
          exact List.take_append_drop _ _
        · rw [if_neg hz] at h
          exact ih _ _ _ _ _ h

theorem feedLoop_conserves :
    ∀ (fuel : Nat) (st : ParserState) (acc : List Ev),
      evsText (feedLoop fuel st acc).2 ++ (feedLoop fuel st acc).1.buffer
        = evsText acc ++ st.buffer := by
  intro fuel
  induction fuel with
  | zero => intro st acc; simp [feedLoop]
  | succ n ih =>
    intro st acc
    unfold feedLoop
    by_cases hin : st.in_tool = true
    · rw [if_pos hin]
      cases hscan : innerScan (st.buffer.length + 1) st.buffer st.nesting_depth TOOL_BEGIN.length with
      | emit block rest =>
        dsimp only
        rw [ih, evsText_append]
        have hbr : block ++ rest = st.buffer := innerScan_emit_conserves _ _ _ _ _ _ hscan
        simp [evsText, evText, ← hbr]
      | wait d => rfl
    · rw [if_neg hin]
      cases hF : pyFind st.buffer TOOL_BEGIN 0 with
      | some idx =>
        dsimp only
        by_cases hp : (st.buffer.take idx).isEmpty
        · rw [if_pos hp, ih]
          have h0 : st.buffer.take idx = [] := by
            simpa [List.isEmpty_iff] using hp
          have h1 := List.take_append_drop idx st.buffer
          rw [h0] at h1
          simp only [List.nil_append] at h1
          rw [h1]
        · rw [if_neg hp, ih, evsText_append]
          have h1 := List.take_append_drop idx st.buffer
          simp only [evsText, evText, List.map_cons, List.map_nil, List.flatten_cons,
            List.flatten_nil, List.append_nil]
          rw [List.append_assoc, h1]
      | none =>
        by_cases hl : TOOL_BEGIN.length < st.buffer.length
        · rw [if_pos hl]
          dsimp only
          rw [evsText_append]
          simp [evsText, evText]
        · rw [if_neg hl]

theorem feed_conserves (st : ParserState) (text : List Char) :
    evsText (feed st text).2 ++ (feed st text).1.buffer = st.buffer ++ text := by
  unfold feed
  have h := feedLoop_conserves ((st.buffer ++ text).length + 2)
    ⟨st.buffer ++ text, st.in_tool, st.nesting_depth⟩ []
  simpa [evsText] using h

theorem feedMany_conserves :
    ∀ (chunks : List (List Char)) (st : ParserState),
      evsText (feedMany st chunks).2 ++ (feedMany st chunks).1.buffer
        = st.buffer ++ chunks.flatten := by
  intro chunks
  induction chunks with
  | nil => intro st; simp [feedMany, evsText]
  | cons c cs ih =>
    intro st
    simp only [feedMany]
    rw [evsText_append, List.append_assoc, ih, ← List.append_assoc, feed_conserves]
    simp

/- String-search lemmas -/

theorem pfx_length_le : ∀ (p l : List Char), pfx p l = true → p.length ≤ l.length := by
  intro p
  induction p with
  | nil => intro l _; simp
  | cons a p2 ih =>
    intro l h
    cases l with
    | nil => exact absurd h (by simp [pfx])
    | cons b t =>
      simp only [pfx, Bool.and_eq_true] at h
      have := ih t h.2
      simp [List.length_cons]
      omega

theorem pfx_of_short (p l : List Char) (h : l.length < p.length) : pfx p l = false := by
  cases hp : pfx p l
  · rfl
  · exact absurd (pfx_length_le p l hp) (by omega)

theorem pfx_self_append : ∀ (p rest : List Char), pfx p (p ++ rest) = true := by
  intro p
  induction p with
  | nil => intro rest; rfl
  | cons a p2 ih => intro rest; simp [pfx, ih]

theorem pfx_append_left : ∀ (p a b : List Char), p.length ≤ a.length →
    pfx p (a ++ b) = pfx p a := by
  intro p
  induction p with
  | nil => intro a b _; rfl
  | cons c p2 ih =>
    intro a b h
    cases a with
    | nil => simp at h
    | cons d a2 =>
      simp only [List.cons_append, pfx, List.append_eq]
      rw [ih a2 b (by simpa using h)]

theorem pyFindAux_immediate (n l : List Char) (i : Nat) (h : pfx n l = true) :
    pyFindAux n l i = some i := by
  cases l <;> simp [pyFindAux, h]

theorem pyFind_immediate (h n : List Char) (s : Nat) (hp : pfx n (h.drop s) = true) :
    pyFind h n s = some s :=
  pyFindAux_immediate n (h.drop s) s hp

theorem pyFindAux_none (n : List Char) :
    ∀ (l : List Char) (i : Nat), (∀ j, pfx n (l.drop j) = false) → pyFindAux n l i = none := by
  intro l
  induction l with
  | nil =>
    intro i hno
    have := hno 0
    simp only [List.drop_nil] at this
    simp [pyFindAux, this]
  | cons c t ih =>
    intro i hno
    have h0 := hno 0
    simp only [List.drop_zero] at h0
    simp only [pyFindAux, h0]
    exact ih (i + 1) (fun j => by simpa using hno (j + 1))

theorem pyFind_none (h n : List Char) (s : Nat)
    (hno : ∀ j, s ≤ j → pfx n (h.drop j) = false) : pyFind h n s = none := by
  unfold pyFind
  apply pyFindAux_none
  intro j
  rw [List.drop_drop]
  exact hno (s + j) (by omega)

theorem pyFind_found_aux :
    ∀ (d : Nat) (h n : List Char) (s t : Nat), n ≠ [] → t = s + d →
      (∀ j, s ≤ j → j < t → pfx n (h.drop j) = false) → pfx n (h.drop t) = true →
      pyFind h n s = some t := by
  intro d
  induction d with
  | zero =>
    intro h n s t _ ht _ hp
    have hts : s = t := by omega
    subst hts
    exact pyFind_immediate h n s hp
  | succ d2 ih =>
    intro h n s t hn ht hno hp
    have hft : pfx n (h.drop s) = false := hno s le_rfl (by omega)
    unfold pyFind
    cases hd : h.drop s with
    | nil =>
      exfalso
      have hlen : h.length ≤ s := by
        have := congrArg List.length hd
        simp only [List.length_drop, List.length_nil] at this
        omega
      have hnil : h.drop t = [] := by
        apply List.drop_eq_nil_of_le
        omega
      rw [hnil] at hp
      cases n with
      | nil => exact hn rfl
      | cons a b => simp [pfx] at hp
    | cons c u =>
      simp only [pyFindAux]
      rw [hd] at hft
      simp only [hft, if_false]
      have hu : u = h.drop (s + 1) := by
        have h1 := List.drop_drop 1 s h
        rw [hd] at h1
        simpa using h1
      have := ih h n (s + 1) t hn (by omega)
        (fun j hj1 hj2 => hno j (by omega) hj2) hp
      unfold pyFind at this
      rw [← hu] at this
      exact this

theorem pyFind_found (h n : List Char) (s t : Nat) (hn : n ≠ []) (hst : s ≤ t)
    (hno : ∀ j, s ≤ j → j < t → pfx n (h.drop j) = false)
    (hp : pfx n (h.drop t) = true) : pyFind h n s = some t :=
  pyFind_found_aux (t - s) h n s t hn (by omega) hno hp

/- Lemmas about the repeated-marker family -/

theorem repL_zero (l : List Char) : repL l 0 = [] := rfl

theorem repL_succ (l : List Char) (n : Nat) : repL l (n + 1) = l ++ repL l n := by
  simp [repL, List.replicate_succ]

theorem repL_add (l : List Char) : ∀ (a b : Nat), repL l (a + b) = repL l a ++ repL l b := by
  intro a
  induction a with
  | zero => intro b; simp [repL_zero]
  | succ a2 ih =>
    intro b
    have h1 : a2 + 1 + b = (a2 + b) + 1 := by omega
    rw [h1, repL_succ, repL_succ, ih, List.append_assoc]

theorem repL_length (l : List Char) : ∀ (n : Nat), (repL l n).length = n * l.length := by
  intro n
  induction n with
  | zero => simp [repL_zero]
  | succ n2 ih => rw [repL_succ]; simp [ih]; ring

theorem drop_repL_mul (l t : List Char) :
    ∀ (i n : Nat), i ≤ n → (repL l n ++ t).drop (i * l.length) = repL l (n - i) ++ t := by
  intro i
  induction i with
  | zero => intro n _; simp
  | succ i2 ih =>
    intro n h
    cases n with
    | zero => omega
    | succ m =>
      rw [repL_succ, List.append_assoc]
      have h1 : (i2 + 1) * l.length = l.length + i2 * l.length := by ring
      rw [h1, ← List.drop_drop]
      rw [List.drop_left]
      rw [ih m (by omega)]
      have h2 : m + 1 - (i2 + 1) = m - i2 := by omega
      rw [h2]

theorem TB_length : TOOL_BEGIN.length = 17 := by decide

theorem TE_length : TOOL_END.length = 15 := by decide

theorem famBuf_length (n : Nat) : (famBuf n).length = 32 * n := by
  simp [famBuf, repL_length, TB_length, TE_length]
  ring

theorem drop_famBuf_B (n i : Nat) (h : i ≤ n) :
    (famBuf n).drop (17 * i) = repL TOOL_BEGIN (n - i) ++ repL TOOL_END n := by
  unfold famBuf
  have h1 : 17 * i = i * TOOL_BEGIN.length := by rw [TB_length]; ring
  rw [h1]
  exact drop_repL_mul _ _ i n h

theorem drop_famBuf_E (n j : Nat) (h : j ≤ n) :
    (famBuf n).drop (17 * n + 15 * j) = repL TOOL_END (n - j) := by
  rw [← List.drop_drop]
  rw [drop_famBuf_B n n le_rfl]
  simp only [Nat.sub_self, repL_zero, List.nil_append]
  have h2 : 15 * j = j * TOOL_END.length := by rw [TE_length]; ring
  rw [h2]
  have := drop_repL_mul TOOL_END [] j n h
  simpa using this

theorem famBuf_pfx_B (n i : Nat) (h : i < n) :
    pfx TOOL_BEGIN ((famBuf n).drop (17 * i)) = true := by
  rw [drop_famBuf_B n i (by omega)]
  have h1 : n - i = (n - i - 1) + 1 := by omega
  rw [h1, repL_succ, List.append_assoc]
  exact pfx_self_append _ _

theorem famBuf_pfx_E (n j : Nat) (h : j < n) :
    pfx TOOL_END ((famBuf n).drop (17 * n + 15 * j)) = true := by
  rw [drop_famBuf_E n j (by omega)]
  have h1 : n - j = (n - j - 1) + 1 := by omega
  rw [h1, repL_succ]
  exact pfx_self_append _ _

theorem noB_in_repE_df2 : ∀ j, j < 14 → pfx TOOL_BEGIN ((repL TOOL_END 2).drop j) = false := by
  decide

theorem noB_in_repE_df3 : ∀ j, j < 15 → pfx TOOL_BEGIN ((repL TOOL_END 3).drop j) = false := by
  decide

theorem repL_TE_length (m : Nat) : (repL TOOL_END m).length = 15 * m := by
  rw [repL_length, TE_length]; ring

theorem noB_in_repE : ∀ (m j : Nat), pfx TOOL_BEGIN ((repL TOOL_END m).drop j) = false := by
  intro m
  induction m with
  | zero =>
    intro j
    simp only [repL_zero, List.drop_nil]
    decide
  | succ m2 ih =>
    intro j
    rcases Nat.lt_or_ge j 15 with hj | hj
    · rcases Nat.lt_or_ge m2 1 with hm | hm
      · have hm0 : m2 = 0 := by omega
        subst hm0
        apply pfx_of_short
        rw [List.length_drop, repL_TE_length, TB_length]
        omega
      · rcases Nat.lt_or_ge m2 2 with hm2 | hm2
        · have hm1 : m2 = 1 := by omega
          subst hm1
          rcases Nat.lt_or_ge j 14 with hj14 | hj14
          · exact noB_in_repE_df2 j hj14
          · apply pfx_of_short
            rw [List.length_drop, repL_TE_length, TB_length]
            omega
        · have h3 : m2 + 1 = 3 + (m2 - 2) := by omega
          rw [h3, repL_add]
          rw [List.drop_append_of_le_length (by rw [repL_TE_length]; omega)]
          rw [pfx_append_left _ _ _ (by
            rw [TB_length, List.length_drop, repL_TE_length]
            omega)]
          exact noB_in_repE_df3 j hj
    · have h1 : repL TOOL_END (m2 + 1) = TOOL_END ++ repL TOOL_END m2 := repL_succ _ _
      rw [h1]
      have h2 : (TOOL_END ++ repL TOOL_END m2).drop j = (repL TOOL_END m2).drop (j - 15) := by
        have h3 := List.drop_drop (j - 15) 15 (TOOL_END ++ repL TOOL_END m2)
        have h4 : TOOL_END.length = 15 := TE_length
        have h5 : (TOOL_END ++ repL TOOL_END m2).drop 15 = repL TOOL_END m2 := by
          rw [← h4, List.drop_left]
        rw [h5] at h3
        have h6 : 15 + (j - 15) = j := by omega
        rw [h6] at h3
        exact h3.symm
      rw [h2]
      exact ih (j - 15)

theorem noE_in_repB_df4 : ∀ j, j < 17 → pfx TOOL_END ((repL TOOL_BEGIN 2).drop j) = false := by
  decide

theorem noE_in_repB_df5 : ∀ j, j < 17 → pfx TOOL_END (TOOL_BEGIN.drop j) = false := by
  decide

theorem noE_in_repB_df6 : ∀ j, j < 17 →
    pfx TOOL_END ((TOOL_BEGIN ++ TOOL_END).drop j) = false := by
  decide

theorem noE_in_repB : ∀ (a m j : Nat), j < 17 * a →
    pfx TOOL_END ((repL TOOL_BEGIN a ++ repL TOOL_END m).drop j) = false := by
  intro a
  induction a with
  | zero => intro m j h; omega
  | succ a2 ih =>
    intro m j h
    rcases Nat.lt_or_ge j 17 with hj | hj
    · rw [repL_succ, List.append_assoc]
      rw [List.drop_append_of_le_length (by rw [TB_length]; omega)]
      rcases Nat.lt_or_ge 0 a2 with ha | ha
      · have h1 : a2 = (a2 - 1) + 1 := by omega
        rw [h1, repL_succ]
        have h2 : TOOL_BEGIN.drop j ++ (TOOL_BEGIN ++ repL TOOL_BEGIN (a2 - 1) ++ repL TOOL_END m)
            = (TOOL_BEGIN.drop j ++ TOOL_BEGIN) ++ (repL TOOL_BEGIN (a2 - 1) ++ repL TOOL_END m) := by
          simp [List.append_assoc]
        rw [h2]
        rw [pfx_append_left _ _ _ (by
          simp only [TE_length, List.length_append, List.length_drop, TB_length]
          omega)]
        have h4 : TOOL_BEGIN.drop j ++ TOOL_BEGIN = (repL TOOL_BEGIN 2).drop j := by
          have : repL TOOL_BEGIN 2 = TOOL_BEGIN ++ (TOOL_BEGIN ++ []) := rfl
          rw [this, List.drop_append_of_le_length (by rw [TB_length]; omega)]
          simp
        rw [h4]
        exact noE_in_repB_df4 j hj
      · have ha0 : a2 = 0 := by omega
        subst ha0
        simp only [repL_zero, List.nil_append]
        cases m with
        | zero =>
          simp only [repL_zero, List.append_nil]
          exact noE_in_repB_df5 j hj
        | succ m2 =>
          rw [repL_succ]
          have h2 : TOOL_BEGIN.drop j ++ (TOOL_END ++ repL TOOL_END m2)
              = (TOOL_BEGIN.drop j ++ TOOL_END) ++ repL TOOL_END m2 := by
            simp [List.append_assoc]
          rw [h2]
          rw [pfx_append_left _ _ _ (by
            simp only [TE_length, List.length_append, List.length_drop, TB_length]
            omega)]
          have h4 : TOOL_BEGIN.drop j ++ TOOL_END = (TOOL_BEGIN ++ TOOL_END).drop j := by
            rw [List.drop_append_of_le_length (by rw [TB_length]; omega)]
          rw [h4]
          exact noE_in_repB_df6 j hj
    · have h1 : repL TOOL_BEGIN (a2 + 1) = TOOL_BEGIN ++ repL TOOL_BEGIN a2 := repL_succ _ _
      rw [h1, List.append_assoc]
      have h2 : (TOOL_BEGIN ++ (repL TOOL_BEGIN a2 ++ repL TOOL_END m)).drop j
          = (repL TOOL_BEGIN a2 ++ repL TOOL_END m).drop (j - 17) := by
        have h3 := List.drop_drop (j - 17) 17 (TOOL_BEGIN ++ (repL TOOL_BEGIN a2 ++ repL TOOL_END m))
        have h5 : (TOOL_BEGIN ++ (repL TOOL_BEGIN a2 ++ repL TOOL_END m)).drop 17
            = repL TOOL_BEGIN a2 ++ repL TOOL_END m := by
          rw [← TB_length, List.drop_left]
        rw [h5] at h3
        have h6 : 17 + (j - 17) = j := by omega
        rw [h6] at h3
        exact h3.symm
      rw [h2]
      exact ih m (j - 17) (by omega)

theorem famBuf_no_B_after (n i : Nat) (h : 17 * n ≤ i) :
    pfx TOOL_BEGIN ((famBuf n).drop i) = false := by
  unfold famBuf
  have h2 : (repL TOOL_BEGIN n ++ repL TOOL_END n).drop i
      = (repL TOOL_END n).drop (i - 17 * n) := by
    have h3 := List.drop_drop (i - 17 * n) (17 * n) (repL TOOL_BEGIN n ++ repL TOOL_END n)
    have h5 : (repL TOOL_BEGIN n ++ repL TOOL_END n).drop (17 * n) = repL TOOL_END n := by
      have h4 : 17 * n = (repL TOOL_BEGIN n).length := by
        rw [repL_length, TB_length]; ring
      rw [h4, List.drop_left]
    rw [h5] at h3
    have h6 : 17 * n + (i - 17 * n) = i := by omega
    rw [h6] at h3
    exact h3.symm
  rw [h2]
  exact noB_in_repE n (i - 17 * n)

theorem famBuf_no_E_before (n j : Nat) (h : j < 17 * n) :
    pfx TOOL_END ((famBuf n).drop j) = false :=
  noE_in_repB n n j h

/- Scan trace on the nested family -/

theorem scanP2 (n : Nat) : ∀ (d j fuel : Nat), d + j = n → 1 ≤ d → d ≤ fuel →
    innerScan fuel (famBuf n) (d : Int) (17 * n + 15 * j) = .emit (famBuf n) [] := by
  intro d
  induction d with
  | zero => intro j fuel h1 h2 _; omega
  | succ d2 ih =>
    intro j fuel hdj hd hf
    obtain ⟨f2, rfl⟩ : ∃ f2, fuel = f2 + 1 := ⟨fuel - 1, by omega⟩
    have hj : j < n := by omega
    have hE : pyFind (famBuf n) TOOL_END (17 * n + 15 * j) = some (17 * n + 15 * j) :=
      pyFind_immediate _ _ _ (famBuf_pfx_E n j hj)
    have hB : pyFind (famBuf n) TOOL_BEGIN (17 * n + 15 * j) = none :=
      pyFind_none _ _ _ (fun i hi => famBuf_no_B_after n i (by omega))
    unfold innerScan
    rw [hE]
    dsimp only
    rw [hB]
    dsimp only
    by_cases hz : d2 = 0
    · subst hz
      rw [if_pos (by norm_num)]
      have hidx : 17 * n + 15 * j + TOOL_END.length = (famBuf n).length := by
        rw [TE_length, famBuf_length]
        omega
      rw [hidx, List.take_length, List.drop_length]
    · rw [if_neg (by push_cast; omega)]
      have hc : ((d2 + 1 : Nat) : Int) - 1 = ((d2 : Nat) : Int) := by push_cast; ring
      rw [hc, TE_length]
      have hidx : 17 * n + 15 * j + 15 = 17 * n + 15 * (j + 1) := by ring
      rw [hidx]
      exact ih (j + 1) f2 (by omega) (by omega) (by omega)

theorem scanP1 (n : Nat) : ∀ (m i fuel : Nat), i + m = n → 1 ≤ i → m + n ≤ fuel →
    innerScan fuel (famBuf n) (i : Int) (17 * i) = .emit (famBuf n) [] := by
  intro m
  induction m with
  | zero =>
    intro i fuel him hi hf
    have hin : i = n := by omega
    subst hin
    have h0 : 17 * i = 17 * i + 15 * 0 := by ring
    rw [h0]
    exact scanP2 i i 0 fuel (by omega) (by omega) (by omega)
  | succ m2 ih =>
    intro i fuel him hi hf
    have hin : i < n := by omega
    obtain ⟨f2, rfl⟩ : ∃ f2, fuel = f2 + 1 := ⟨fuel - 1, by omega⟩
    have hB : pyFind (famBuf n) TOOL_BEGIN (17 * i) = some (17 * i) :=
      pyFind_immediate _ _ _ (famBuf_pfx_B n i hin)
    have hE : pyFind (famBuf n) TOOL_END (17 * i) = some (17 * n) := by
      apply pyFind_found _ _ _ _ (by decide) (by omega)
      · intro j hj1 hj2
        exact famBuf_no_E_before n j (by omega)
      · have h1 := famBuf_pfx_E n 0 (by omega)
        simpa using h1
    unfold innerScan
    rw [hE]
    dsimp only
    rw [hB]
    dsimp only
    rw [if_pos (by omega : 17 * i < 17 * n)]
    have hc : ((i : Nat) : Int) + 1 = ((i + 1 : Nat) : Int) := by push_cast; ring
    rw [hc, TB_length]
    have hidx : 17 * i + 17 = 17 * (i + 1) := by ring
    rw [hidx]
    exact ih (i + 1) f2 (by omega) (by omega) (by omega)

/- Depth invariant lemmas -/

theorem innerScan_wait_ge :
    ∀ (fuel : Nat) (buf : List Char) (d : Int) (ss : Nat) (d2 : Int),
      1 ≤ d → innerScan fuel buf d ss = .wait d2 → 1 ≤ d2 := by
  intro fuel
  induction fuel with
  | zero =>
    intro buf d ss d2 hd h
    injection h with h1
    omega
  | succ f ih =>
    intro buf d ss d2 hd h
    unfold innerScan at h
    cases hE : pyFind buf TOOL_END ss with
    | none =>
      rw [hE] at h
      injection h with h1
      omega
    | some ne =>
      rw [hE] at h
      dsimp only at h
      cases hB : pyFind buf TOOL_BEGIN ss with
      | some nb =>
        rw [hB] at h
        dsimp only at h
        by_cases hlt : nb < ne
        · rw [if_pos hlt] at h
          exact ih _ _ _ _ (by omega) h
        · rw [if_neg hlt] at h
          by_cases hz : d - 1 = 0
          · rw [if_pos hz] at h
            exact absurd h (by simp)
          · rw [if_neg hz] at h
            exact ih _ _ _ _ (by omega) h
      | none =>
        rw [hB] at h
        dsimp only at h
        by_cases hz : d - 1 = 0
        · rw [if_pos hz] at h
          exact absurd h (by simp)
        · rw [if_neg hz] at h
          exact ih _ _ _ _ (by omega) h

theorem feedLoop_inv :
    ∀ (fuel : Nat) (st : ParserState) (acc : List Ev),
      parserInv st → parserInv (feedLoop fuel st acc).1 := by
  intro fuel
  induction fuel with
  | zero => intro st acc h; simpa [feedLoop] using h
  | succ f ih =>
    intro st acc hinv
    unfold feedLoop
    by_cases hin : st.in_tool = true
    · rw [if_pos hin]
      cases hscan : innerScan (st.buffer.length + 1) st.buffer st.nesting_depth TOOL_BEGIN.length with
      | emit block rest =>
        dsimp only
        exact ih _ _ ⟨fun h2 => by simp at h2, fun _ => rfl⟩
      | wait d2 =>
        dsimp only
        constructor
        · intro _
          exact innerScan_wait_ge _ _ _ _ _ (hinv.1 hin) hscan
        · intro hfalse
          simp at hfalse
    · rw [if_neg hin]
      cases hF : pyFind st.buffer TOOL_BEGIN 0 with
      | some idx =>
        dsimp only
        exact ih _ _ ⟨fun _ => by norm_num, fun h2 => by simp at h2⟩
      | none =>
        by_cases hl : TOOL_BEGIN.length < st.buffer.length
        · rw [if_pos hl]
          dsimp only
          constructor
          · intro h2; simp at h2
          · intro _
            exact hinv.2 (by revert hin; cases st.in_tool <;> simp)
        · rw [if_neg hl]
          exact hinv

theorem feed_preserves_inv (st : ParserState) (text : List Char) (h : parserInv st) :
    parserInv (feed st text).1 := by
  unfold feed
  exact feedLoop_inv _ _ _ ⟨h.1, h.2⟩

/- Outer loop single steps -/

theorem feedLoop_enter (fuel : Nat) (st : ParserState) (acc : List Ev) (idx : Nat)
    (h : st.in_tool = false) (hF : pyFind st.buffer TOOL_BEGIN 0 = some idx)
    (hempty : (st.buffer.take idx).isEmpty = true) :
    feedLoop (fuel + 1) st acc = feedLoop fuel ⟨st.buffer.drop idx, true, 1⟩ acc := by
  simp only [feedLoop]
  rw [if_neg (by simp [h]), hF]
  dsimp only
  rw [if_pos hempty]

theorem feedLoop_emitStep (fuel : Nat) (st : ParserState) (acc : List Ev)
    (block rest : List Char) (h : st.in_tool = true)
    (hscan : innerScan (st.buffer.length + 1) st.buffer st.nesting_depth TOOL_BEGIN.length
      = .emit block rest) :
    feedLoop (fuel + 1) st acc
      = feedLoop fuel ⟨rest, false, 0⟩ (acc ++ [((some block : Option (List Char)), [])]) := by
  simp only [feedLoop]
  rw [if_pos h, hscan]

theorem feedLoop_term (fuel : Nat) (st : ParserState) (acc : List Ev)
    (h : st.in_tool = false) (hF : pyFind st.buffer TOOL_BEGIN 0 = none)
    (hl : ¬ TOOL_BEGIN.length < st.buffer.length) :
    feedLoop (fuel + 1) st acc = (st, acc) := by
  simp only [feedLoop]
  rw [if_neg (by simp [h]), hF]
  dsimp only
  rw [if_neg hl]

theorem famInput_length (k : Nat) : (famInput k).length = 32 * (k + 1) := by
  unfold famInput
  exact famBuf_length (k + 1)

theorem famInput_feed (k : Nat) :
    feed initState (famInput k)
      = (initState, [((some (famInput k) : Option (List Char)), [])]) := by
  have hscan : innerScan ((famInput k).length + 1) (famInput k) (1 : Int) TOOL_BEGIN.length
      = .emit (famInput k) [] := by
    have hfuel : k + (k + 1) ≤ (famInput k).length + 1 := by
      rw [famInput_length]
      omega
    have h1 := scanP1 (k + 1) k 1 ((famInput k).length + 1) (by omega) (by omega) hfuel
    simpa [famInput, TB_length] using h1
  have hfind0 : pyFind (famInput k) TOOL_BEGIN 0 = some 0 := by
    apply pyFind_immediate
    rw [List.drop_zero]
    show pfx TOOL_BEGIN (famBuf (k + 1)) = true
    unfold famBuf
    rw [repL_succ, List.append_assoc]
    exact pfx_self_append _ _
  unfold feed initState
  simp only [List.nil_append]
  rw [show (famInput k).length + 2 = ((famInput k).length + 1) + 1 from rfl]
  rw [feedLoop_enter _ _ _ 0 rfl hfind0 (by simp)]
  simp only [List.drop_zero]
  rw [feedLoop_emitStep _ _ _ (famInput k) [] rfl hscan]
  obtain ⟨F, hFeq⟩ : ∃ F, (famInput k).length = F + 1 :=
    ⟨(famInput k).length - 1, by rw [famInput_length]; omega⟩
  rw [hFeq, feedLoop_term _ _ _ rfl (by decide) (by decide)]
  simp

/- General nested-block machinery for the C2 trace -/

theorem mlen_true : mlen true = 17 := TB_length

theorem mlen_false : mlen false = 15 := TE_length

theorem pyFindAux_sound (n : List Char) :
    ∀ (l : List Char) (i r : Nat), pyFindAux n l i = some r →
      i ≤ r ∧ pfx n (l.drop (r - i)) = true := by
  intro l
  induction l with
  | nil =>
    intro i r h
    unfold pyFindAux at h
    by_cases hp : pfx n [] = true
    · rw [if_pos hp] at h
      have hir : i = r := Option.some_inj.mp h
      subst hir
      exact ⟨le_rfl, by simpa using hp⟩
    · rw [if_neg hp] at h
      simp at h
  | cons c t ih =>
    intro i r h
    unfold pyFindAux at h
    by_cases hp : pfx n (c :: t) = true
    · rw [if_pos hp] at h
      have hir : i = r := Option.some_inj.mp h
      subst hir
      exact ⟨le_rfl, by simpa using hp⟩
    · rw [if_neg hp] at h
      obtain ⟨h1, h2⟩ := ih (i + 1) r h
      refine ⟨by omega, ?_⟩
      rw [show r - i = (r - (i + 1)) + 1 from by omega, List.drop_succ_cons]
      exact h2

theorem pyFind_sound (h n : List Char) (s r : Nat) (hf : pyFind h n s = some r) :
    s ≤ r ∧ pfx n (h.drop r) = true := by
  unfold pyFind at hf
  obtain ⟨h1, h2⟩ := pyFindAux_sound n (h.drop s) s r hf
  refine ⟨h1, ?_⟩
  rw [List.drop_drop] at h2
  rw [show s + (r - s) = r from by omega] at h2
  exact h2

theorem pyFind_le_occ_aux :
    ∀ (d : Nat) (h n : List Char) (s t : Nat), n ≠ [] → t = s + d →
      pfx n (h.drop t) = true → ∃ r, pyFind h n s = some r ∧ r ≤ t := by
  intro d
  induction d with
  | zero =>
    intro h n s t _ ht hp
    have hts : s = t := by omega
    subst hts
    exact ⟨s, pyFind_immediate h n s hp, le_rfl⟩
  | succ d2 ih =>
    intro h n s t hn ht hp
    by_cases hps : pfx n (h.drop s) = true
    · exact ⟨s, pyFind_immediate h n s hps, by omega⟩
    · have hf : pfx n (h.drop s) = false := by
        cases hx : pfx n (h.drop s)
        · rfl
        · exact absurd hx hps
      unfold pyFind
      cases hd : h.drop s with
      | nil =>
        exfalso
        have hlen : h.length ≤ s := by
          have h9 := congrArg List.length hd
          simp only [List.length_drop, List.length_nil] at h9
          omega
        have hnil : h.drop t = [] := List.drop_eq_nil_of_le (by omega)
        rw [hnil] at hp
        cases n with
        | nil => exact hn rfl
        | cons a b => simp [pfx] at hp
      | cons c u =>
        simp only [pyFindAux]
        rw [hd] at hf
        simp only [hf, if_false]
        have hu : u = h.drop (s + 1) := by
          have h1 := List.drop_drop 1 s h
          rw [hd] at h1
          simpa using h1
        obtain ⟨r, hr1, hr2⟩ := ih h n (s + 1) t hn (by omega) hp
        unfold pyFind at hr1
        rw [← hu] at hr1
        exact ⟨r, hr1, hr2⟩

theorem pyFind_le_occ (h n : List Char) (s t : Nat) (hn : n ≠ []) (hst : s ≤ t)
    (hp : pfx n (h.drop t) = true) : ∃ r, pyFind h n s = some r ∧ r ≤ t :=
  pyFind_le_occ_aux (t - s) h n s t hn (by omega) hp

theorem markerPos_lb : ∀ (l : List (List Char × Bool)) (p : Nat) (x : Nat × Bool),
    x ∈ markerPos p l → p ≤ x.1 := by
  intro l
  induction l with
  | nil => intro p x hx; simp [markerPos] at hx
  | cons s rest ih =>
    intro p x hx
    simp only [markerPos] at hx
    rcases List.mem_cons.mp hx with h1 | h1
    · rw [h1]
      dsimp
      omega
    · have h9 := ih (p + s.1.length + mlen s.2) x h1
      omega

theorem endPos_ge : ∀ (l : List (List Char × Bool)) (p : Nat), p ≤ endPos p l := by
  intro l
  induction l with
  | nil => intro p; simp [endPos]
  | cons s rest ih =>
    intro p
    simp only [endPos]
    have h9 := ih (p + s.1.length + mlen s.2)
    omega

theorem markerPos_ub : ∀ (l : List (List Char × Bool)) (p : Nat) (x : Nat × Bool),
    x ∈ markerPos p l → x.1 + mlen x.2 ≤ endPos p l := by
  intro l
  induction l with
  | nil => intro p x hx; simp [markerPos] at hx
  | cons s rest ih =>
    intro p x hx
    simp only [markerPos] at hx
    simp only [endPos]
    rcases List.mem_cons.mp hx with h1 | h1
    · rw [h1]
      dsimp
      exact endPos_ge rest (p + s.1.length + mlen s.2)
    · exact ih _ x h1

theorem markerPos_snd : ∀ (l : List (List Char × Bool)) (p : Nat),
    (markerPos p l).map Prod.snd = l.map Prod.snd := by
  intro l
  induction l with
  | nil => intro p; rfl
  | cons s rest ih =>
    intro p
    simp only [markerPos, List.map_cons, ih]

theorem stepText_length (s : List Char × Bool) :
    (stepText s).length = s.1.length + mlen s.2 := by
  unfold stepText
  rw [List.length_append]
  cases hb : s.2
  · rw [if_neg (by simp), mlen_false, TE_length]
  · rw [if_pos rfl, mlen_true, TB_length]

theorem endPos_length : ∀ (l : List (List Char × Bool)) (p : Nat),
    endPos p l = p + ((l.map stepText).flatten).length := by
  intro l
  induction l with
  | nil => intro p; simp [endPos]
  | cons s rest ih =>
    intro p
    simp only [endPos, List.map_cons, List.flatten_cons, List.length_append]
    rw [ih, stepText_length]
    omega

theorem blk_length (steps : List (List Char × Bool)) :
    (nestedBlk steps).length = endPos 17 steps := by
  unfold nestedBlk
  rw [List.length_append, TB_length, endPos_length]

theorem steps_le_endPos : ∀ (l : List (List Char × Bool)) (p : Nat),
    p + l.length ≤ endPos p l := by
  intro l
  induction l with
  | nil => intro p; simp [endPos]
  | cons s rest ih =>
    intro p
    simp only [endPos, List.length_cons]
    have h9 := ih (p + s.1.length + mlen s.2)
    have hm : 15 ≤ mlen s.2 := by
      cases hb : s.2
      · rw [mlen_false]
      · rw [mlen_true]; omega
    omega

theorem dAfter_all_true : ∀ (bs : List Bool) (d : Int),
    (∀ b ∈ bs, b = true) → dAfter d bs = d + bs.length := by
  intro bs
  induction bs with
  | nil => intro d _; simp [dAfter]
  | cons b t ih =>
    intro d h
    have hb : b = true := h b (List.mem_cons_self b t)
    subst hb
    simp only [dAfter, if_true]
    rw [ih (d + 1) (fun b2 hb2 => h b2 (List.mem_cons_of_mem _ hb2))]
    simp only [List.length_cons]
    push_cast
    ring

theorem feedLoop_enter_gen (fuel : Nat) (st : ParserState) (acc : List Ev) (idx : Nat)
    (h : st.in_tool = false) (hF : pyFind st.buffer TOOL_BEGIN 0 = some idx) :
    feedLoop (fuel + 1) st acc
      = feedLoop fuel ⟨st.buffer.drop idx, true, 1⟩
          (if (st.buffer.take idx).isEmpty then acc
            else acc ++ [((none : Option (List Char)), st.buffer.take idx)]) := by
  simp only [feedLoop]
  rw [if_neg (by simp [h]), hF]

theorem feedLoop_term_long (fuel : Nat) (st : ParserState) (acc : List Ev)
    (h : st.in_tool = false) (hF : pyFind st.buffer TOOL_BEGIN 0 = none)
    (hl : TOOL_BEGIN.length < st.buffer.length) :
    feedLoop (fuel + 1) st acc
      = (⟨st.buffer.drop (st.buffer.length - TOOL_BEGIN.length), false, st.nesting_depth⟩,
          acc ++ [((none : Option (List Char)),
            st.buffer.take (st.buffer.length - TOOL_BEGIN.length))]) := by
  simp only [feedLoop]
  rw [if_neg (by simp [h]), hF]
  dsimp only
  rw [if_pos hl]

theorem scanGen (U : List Char) :
    ∀ (rest : List (List Char × Bool)) (ss : Nat) (d : Int) (fuel : Nat),
      rest ≠ [] →
      (∀ i, ss ≤ i →
        ((pfx TOOL_BEGIN (U.drop i) = true ↔ (i, true) ∈ markerPos ss rest)
          ∧ (pfx TOOL_END (U.drop i) = true ↔ (i, false) ∈ markerPos ss rest))) →
      dAfter d (rest.map Prod.snd) = 0 →
      (∀ j, j < (rest.map Prod.snd).length → 1 ≤ dAfter d ((rest.map Prod.snd).take j)) →
      rest.length ≤ fuel →
      innerScan fuel U d ss = .emit (U.take (endPos ss rest)) (U.drop (endPos ss rest)) := by
  intro rest
  induction rest with
  | nil => intro ss d fuel hne _ _ _ _; exact absurd rfl hne
  | cons s rest2 ih =>
    intro ss d fuel _ hocc hbal hpos hfuel
    obtain ⟨f, b⟩ := s
    cases fuel with
    | zero => simp only [List.length_cons] at hfuel; omega
    | succ F =>
      simp only [markerPos, List.map_cons] at hocc hbal hpos
      simp only [endPos]
      have hd1 : 1 ≤ d := by
        have h9 := hpos 0 (by simp)
        simpa [dAfter] using h9
      cases b with
      | true =>
        rw [mlen_true] at hocc ⊢
        have hbal2 : dAfter (d + 1) (List.map Prod.snd rest2) = 0 := by
          simpa [dAfter] using hbal
        have hpos2 : ∀ j, j < (List.map Prod.snd rest2).length →
            1 ≤ dAfter (d + 1) ((List.map Prod.snd rest2).take j) := by
          intro j hj
          have h9 := hpos (j + 1) (by simpa using Nat.succ_lt_succ hj)
          simpa [dAfter, List.take_succ_cons] using h9
        have hrest2ne : rest2 ≠ [] := by
          intro hh
          subst hh
          simp [dAfter] at hbal2
          omega
        have hB : pyFind U TOOL_BEGIN ss = some (ss + f.length) := by
          apply pyFind_found _ _ _ _ (by decide) (by omega)
          · intro j hj1 hj2
            cases hp : pfx TOOL_BEGIN (U.drop j)
            · rfl
            · exfalso
              rcases List.mem_cons.mp ((hocc j hj1).1.mp hp) with h10 | h10
              · have h11 : j = ss + f.length := congrArg Prod.fst h10
                omega
              · have h11 : ss + f.length + 17 ≤ j :=
                  markerPos_lb rest2 (ss + f.length + 17) (j, true) h10
                omega
          · exact (hocc (ss + f.length) (by omega)).1.mpr (List.mem_cons_self _ _)
        have hExFalse : ∃ x ∈ markerPos (ss + f.length + 17) rest2, x.2 = false := by
          by_contra hall
          push_neg at hall
          have hallT : ∀ b2 ∈ (markerPos (ss + f.length + 17) rest2).map Prod.snd,
              b2 = true := by
            intro b2 hb2
            rcases List.mem_map.mp hb2 with ⟨x, hx1, hx2⟩
            cases hx9 : x.2
            · exact absurd hx9 (hall x hx1)
            · rw [← hx2, hx9]
          rw [markerPos_snd] at hallT
          rw [dAfter_all_true _ _ hallT] at hbal2
          omega
        obtain ⟨x, hx1, hx2⟩ := hExFalse
        have hxlb : ss + f.length + 17 ≤ x.1 := markerPos_lb _ _ _ hx1
        have hoccx : pfx TOOL_END (U.drop x.1) = true := by
          apply (hocc x.1 (by omega)).2.mpr
          apply List.mem_cons_of_mem
          rw [show ((x.1, false) : Nat × Bool) = x from by rw [← hx2]]
          exact hx1
        obtain ⟨ne, hne, hnele⟩ := pyFind_le_occ U TOOL_END ss x.1 (by decide) (by omega) hoccx
        have hnegeom := pyFind_sound U TOOL_END ss ne hne
        have hnb_lt : ss + f.length < ne := by
          rcases List.mem_cons.mp ((hocc ne hnegeom.1).2.mp hnegeom.2) with h10 | h10
          · exfalso
            have h11 : (false : Bool) = true := congrArg Prod.snd h10
            exact Bool.false_ne_true h11
          · have h11 : ss + f.length + 17 ≤ ne :=
              markerPos_lb rest2 (ss + f.length + 17) (ne, false) h10
            omega
        have hocc2 : ∀ i, ss + f.length + 17 ≤ i →
            ((pfx TOOL_BEGIN (U.drop i) = true
                ↔ (i, true) ∈ markerPos (ss + f.length + 17) rest2)
              ∧ (pfx TOOL_END (U.drop i) = true
                ↔ (i, false) ∈ markerPos (ss + f.length + 17) rest2)) := by
          intro i hi
          constructor
          · constructor
            · intro hp
              rcases List.mem_cons.mp ((hocc i (by omega)).1.mp hp) with h10 | h10
              · exfalso
                have h11 : i = ss + f.length := congrArg Prod.fst h10
                omega
              · exact h10
            · intro hm
              exact (hocc i (by omega)).1.mpr (List.mem_cons_of_mem _ hm)
          · constructor
            · intro hp
              rcases List.mem_cons.mp ((hocc i (by omega)).2.mp hp) with h10 | h10
              · exfalso
                have h11 : i = ss + f.length := congrArg Prod.fst h10
                omega
              · exact h10
            · intro hm
              exact (hocc i (by omega)).2.mpr (List.mem_cons_of_mem _ hm)
        simp only [innerScan]
        rw [hne]
        dsimp only
        rw [hB]
        dsimp only
        rw [if_pos hnb_lt]
        rw [TB_length]
        exact ih (ss + f.length + 17) (d + 1) F hrest2ne hocc2 hbal2 hpos2
          (by simp only [List.length_cons] at hfuel; omega)
      | false =>
        rw [mlen_false] at hocc ⊢
        have hbal2 : dAfter (d - 1) (List.map Prod.snd rest2) = 0 := by
          simpa [dAfter] using hbal
        have hpos2 : ∀ j, j < (List.map Prod.snd rest2).length →
            1 ≤ dAfter (d - 1) ((List.map Prod.snd rest2).take j) := by
          intro j hj
          have h9 := hpos (j + 1) (by simpa using Nat.succ_lt_succ hj)
          simpa [dAfter, List.take_succ_cons] using h9
        have hE : pyFind U TOOL_END ss = some (ss + f.length) := by
          apply pyFind_found _ _ _ _ (by decide) (by omega)
          · intro j hj1 hj2
            cases hp : pfx TOOL_END (U.drop j)
            · rfl
            · exfalso
              rcases List.mem_cons.mp ((hocc j hj1).2.mp hp) with h10 | h10
              · have h11 : j = ss + f.length := congrArg Prod.fst h10
                omega
              · have h11 : ss + f.length + 15 ≤ j :=
                  markerPos_lb rest2 (ss + f.length + 15) (j, false) h10
                omega
          · exact (hocc (ss + f.length) (by omega)).2.mpr (List.mem_cons_self _ _)
        have hstep : innerScan (F + 1) U d ss
            = if d - 1 = 0 then
                ScanRes.emit (U.take (ss + f.length + TOOL_END.length))
                  (U.drop (ss + f.length + TOOL_END.length))
              else innerScan F U (d - 1) (ss + f.length + TOOL_END.length) := by
          simp only [innerScan]
          rw [hE]
          dsimp only
          cases hB : pyFind U TOOL_BEGIN ss with
          | none => dsimp only
          | some nb =>
            have hsound := pyFind_sound U TOOL_BEGIN ss nb hB
            have hnblb : ss + f.length + 15 ≤ nb := by
              rcases List.mem_cons.mp ((hocc nb hsound.1).1.mp hsound.2) with h10 | h10
              · exfalso
                have h11 : (true : Bool) = false := congrArg Prod.snd h10
                exact Bool.true_eq_false.mp h11
              · exact markerPos_lb rest2 (ss + f.length + 15) (nb, true) h10
            dsimp only
            rw [if_neg (by omega)]
        rw [hstep]
        by_cases hd2 : d - 1 = 0
        · rw [if_pos hd2]
          have hrest2 : rest2 = [] := by
            by_contra hne2
            obtain ⟨s2, rest3, rfl⟩ : ∃ s2 rest3, rest2 = s2 :: rest3 := by
              cases rest2 with
              | nil => exact absurd rfl hne2
              | cons a l => exact ⟨a, l, rfl⟩
            have h9 := hpos 1 (by simp)
            simp [dAfter, List.take_succ_cons] at h9
            omega
          subst hrest2
          rw [TE_length]
          simp only [endPos]
        · rw [if_neg hd2]
          have hrest2ne : rest2 ≠ [] := by
            intro hh
            subst hh
            simp [dAfter] at hbal2
            exact hd2 hbal2
          have hocc2 : ∀ i, ss + f.length + 15 ≤ i →
              ((pfx TOOL_BEGIN (U.drop i) = true
                  ↔ (i, true) ∈ markerPos (ss + f.length + 15) rest2)
                ∧ (pfx TOOL_END (U.drop i) = true
                  ↔ (i, false) ∈ markerPos (ss + f.length + 15) rest2)) := by
            intro i hi
            constructor
            · constructor
              · intro hp
                rcases List.mem_cons.mp ((hocc i (by omega)).1.mp hp) with h10 | h10
                · exfalso
                  have h11 : i = ss + f.length := congrArg Prod.fst h10
                  omega
                · exact h10
              · intro hm
                exact (hocc i (by omega)).1.mpr (List.mem_cons_of_mem _ hm)
            · constructor
              · intro hp
                rcases List.mem_cons.mp ((hocc i (by omega)).2.mp hp) with h10 | h10
                · exfalso
                  have h11 : i = ss + f.length := congrArg Prod.fst h10
                  omega
                · exact h10
              · intro hm
                exact (hocc i (by omega)).2.mpr (List.mem_cons_of_mem _ hm)
          rw [TE_length]
          exact ih (ss + f.length + 15) (d - 1) F hrest2ne hocc2 hbal2 hpos2
            (by simp only [List.length_cons] at hfuel; omega)

/- String lemmas for the decoder round-trip proofs -/

theorem dropWhile_eq_self_of_head {α : Type} (p : α → Bool) (l : List α)
    (h : ∀ c, l.head? = some c → p c = false) : l.dropWhile p = l := by
  cases l with
  | nil => rfl
  | cons c t => simp [List.dropWhile_cons, h c rfl]

theorem pyStrip_eq_self (l : List Char)
    (h1 : ∀ c, l.head? = some c → ws c = false)
    (h2 : ∀ c, l.getLast? = some c → ws c = false) : pyStrip l = l := by
  unfold pyStrip
  rw [dropWhile_eq_self_of_head ws l h1]
  rw [dropWhile_eq_self_of_head ws l.reverse
    (fun c hc => h2 c (by rwa [← List.head?_reverse]))]
  exact List.reverse_reverse l

theorem pyStrip_cons_ws (c : Char) (l : List Char) (h : ws c = true) :
    pyStrip (c :: l) = pyStrip l := by
  unfold pyStrip
  rw [List.dropWhile_cons]
  simp [h]

theorem pyStrip_append_ws (l : List Char) (c : Char) (h : ws c = true) :
    pyStrip (l ++ [c]) = pyStrip l := by
  unfold pyStrip
  rw [List.dropWhile_append]
  by_cases he : (List.dropWhile ws l).isEmpty
  · rw [if_pos he]
    have h1 : List.dropWhile ws [c] = [] := by simp [List.dropWhile_cons, h]
    have h2 : List.dropWhile ws l = [] := by simpa [List.isEmpty_iff] using he
    rw [h1, h2]
  · rw [if_neg he]
    rw [List.reverse_append]
    simp only [List.reverse_cons, List.reverse_nil, List.nil_append, List.singleton_append]
    rw [List.dropWhile_cons]
    simp [h]

theorem splitNl_ne_nil (l : List Char) : splitNl l ≠ [] := by
  cases l with
  | nil => simp [splitNl]
  | cons c t =>
    unfold splitNl
    split
    · simp
    · split <;> simp

theorem splitNl_append_nl (a b : List Char) (h : '\n' ∉ a) :
    splitNl (a ++ '\n' :: b) = a :: splitNl b := by
  induction a with
  | nil => simp [splitNl]
  | cons c t ih =>
    have hc : c ≠ '\n' := fun hh => h (hh ▸ List.mem_cons_self c t)
    have ht : '\n' ∉ t := fun hh => h (List.mem_cons_of_mem c hh)
    simp only [List.cons_append]
    conv_lhs => rw [splitNl]
    rw [if_neg hc, ih ht]

theorem splitNl_no_nl (l : List Char) (h : '\n' ∉ l) : splitNl l = [l] := by
  induction l with
  | nil => rfl
  | cons c t ih =>
    have hc : c ≠ '\n' := fun hh => h (hh ▸ List.mem_cons_self c t)
    have ht : '\n' ∉ t := fun hh => h (List.mem_cons_of_mem c hh)
    unfold splitNl
    rw [if_neg hc, ih ht]

theorem joinNl_cons_ne (x : List Char) (r : List (List Char)) (h : r ≠ []) :
    joinNl (x :: r) = x ++ '\n' :: joinNl r := by
  cases r with
  | nil => exact absurd rfl h
  | cons y s => rfl

theorem joinNl_splitNl (l : List Char) : joinNl (splitNl l) = l := by
  induction l with
  | nil => rfl
  | cons c t ih =>
    unfold splitNl
    by_cases h : c = '\n'
    · subst h
      rw [if_pos rfl, joinNl_cons_ne _ _ (splitNl_ne_nil t), ih]
      rfl
    · rw [if_neg h]
      cases hs : splitNl t with
      | nil => exact absurd hs (splitNl_ne_nil t)
      | cons y s =>
        cases s with
        | nil =>
          have hyt : y = t := by rw [hs] at ih; simpa [joinNl] using ih
          simp [joinNl, hyt]
        | cons z s2 =>
          have h1 : joinNl ((c :: y) :: z :: s2) = (c :: y) ++ '\n' :: joinNl (z :: s2) := rfl
          rw [h1]
          rw [hs] at ih
          rw [joinNl_cons_ne _ _ (by simp)] at ih
          simp only [List.cons_append]
          rw [ih]

theorem pfx_head (p l : List Char) (h : pfx p l = true) (hp : p ≠ []) :
    l.head? = p.head? := by
  cases p with
  | nil => exact absurd rfl hp
  | cons a q =>
    cases l with
    | nil => simp [pfx] at h
    | cons b t =>
      simp only [pfx, Bool.and_eq_true, beq_iff_eq] at h
      simp [h.1]

theorem pfx_append_elim : ∀ (p q l : List Char), pfx (p ++ q) l = true → pfx p l = true := by
  intro p
  induction p with
  | nil => intro q l _; rfl
  | cons a p2 ih =>
    intro q l h
    cases l with
    | nil => simp [pfx] at h
    | cons b t =>
      simp only [List.cons_append, pfx, Bool.and_eq_true] at h ⊢
      exact ⟨h.1, ih q t h.2⟩

theorem pfx_append_elim2 :
    ∀ (p q l : List Char), pfx (p ++ q) l = true → pfx q (l.drop p.length) = true := by
  intro p
  induction p with
  | nil => intro q l h; simpa using h
  | cons a p2 ih =>
    intro q l h
    cases l with
    | nil => simp [pfx] at h
    | cons b t =>
      simp only [List.cons_append, pfx, Bool.and_eq_true] at h
      simpa using ih q t h.2

theorem pfx_nil_false (n : List Char) (h : n ≠ []) : pfx n [] = false := by
  cases n with
  | nil => exact absurd rfl h
  | cons a q => rfl

theorem containsSub_eq_false (needle hay : List Char) (hn : needle ≠ [])
    (h : containsSub needle hay = false) : ∀ i, pfx needle (hay.drop i) = false := by
  intro i
  rcases Nat.lt_or_ge i (hay.length + 1) with hi | hi
  · unfold containsSub at h
    simp only [List.any_eq_false] at h
    exact Bool.eq_false_iff.mpr (h i (List.mem_range.mpr hi))
  · have hd : hay.drop i = [] := List.drop_eq_nil_of_le (by omega)
    rw [hd]
    exact pfx_nil_false _ hn

theorem takeWhile_all_append (p : Char → Bool) (a : List Char) (q : Char) (r : List Char)
    (ha : ∀ c ∈ a, p c = true) (hq : p q = false) :
    (a ++ q :: r).takeWhile p = a := by
  induction a with
  | nil => simp [List.takeWhile_cons, hq]
  | cons c t ih =>
    simp only [List.cons_append, List.takeWhile_cons, ha c (List.mem_cons_self c t), if_true]
    rw [ih (fun d hd => ha d (List.mem_cons_of_mem c hd))]

theorem head?_drop (l : List Char) (i : Nat) : (l.drop i).head? = l.get? i := by
  induction l generalizing i with
  | nil => simp
  | cons c t ih =>
    cases i with
    | zero => rfl
    | succ j => exact ih j

theorem pfx_get :
    ∀ (p l : List Char), pfx p l = true → ∀ j, j < p.length → l.get? j = p.get? j := by
  intro p
  induction p with
  | nil => intro l _ j hj; simp at hj
  | cons a q ih =>
    intro l h j hj
    cases l with
    | nil => simp [pfx] at h
    | cons b t =>
      simp only [pfx, Bool.and_eq_true, beq_iff_eq] at h
      cases j with
      | zero => simp [h.1]
      | succ j2 => simpa using ih t h.2 j2 (by simpa using hj)

theorem pyStrip_isEmpty_false (l : List Char) (c : Char) (hm : c ∈ l) (hc : ws c = false) :
    (pyStrip l).isEmpty = false := by
  cases he : (pyStrip l).isEmpty
  · rfl
  · exfalso
    have hnil : pyStrip l = [] := by simpa [List.isEmpty_iff] using he
    unfold pyStrip at hnil
    rw [List.reverse_eq_nil_iff] at hnil
    rw [List.dropWhile_eq_nil_iff] at hnil
    have h2 : ∀ x ∈ l.dropWhile ws, ws x := by
      intro x hx
      exact hnil x (by simpa using hx)
    have h3 : ∀ x ∈ l, ws x := by
      intro x hx
      rw [← List.takeWhile_append_dropWhile (p := ws) (l := l)] at hx
      rcases List.mem_append.mp hx with h4 | h4
      · exact List.mem_takeWhile_imp h4
      · exact h2 x h4
    rw [h3 c hm] at hc
    exact Bool.true_eq_false.mp hc

/- Occurrence machinery for the boundary marker -/

theorem drop_append_ge (x z : List Char) (i : Nat) (h : x.length ≤ i) :
    (x ++ z).drop i = z.drop (i - x.length) := by
  have h3 := List.drop_drop (i - x.length) x.length (x ++ z)
  rw [List.drop_left] at h3
  have h4 : x.length + (i - x.length) = i := by omega
  rw [h4] at h3
  exact h3.symm

theorem noOcc_append3 (M x yb : List Char) (By : Nat)
    (hx : ∀ i, i < x.length → pfx M ((x ++ yb).drop i) = false)
    (hy : ∀ i, i < By → pfx M (yb.drop i) = false) :
    ∀ i, i < x.length + By → pfx M ((x ++ yb).drop i) = false := by
  intro i hi
  rcases Nat.lt_or_ge i x.length with h1 | h1
  · exact hx i h1
  · rw [drop_append_ge x yb i h1]
    exact hy _ (by omega)

theorem pfx_false_head (M : List Char) (c : Char) (b : List Char)
    (hM : M ≠ []) (hne : M.head? ≠ some c) : pfx M (c :: b) = false := by
  cases M with
  | nil => exact absurd rfl hM
  | cons a q =>
    have hac : ¬ a = c := by
      intro hh
      exact hne (by simp [hh])
    simp [pfx, hac]

theorem noDDb_adj : ∀ (l : List Char), noDDb l = true →
    ∀ i, l.get? i = some '-' → l.get? (i + 1) ≠ some '-' := by
  intro l
  induction l with
  | nil => intro _ i h; simp at h
  | cons a t ih =>
    intro h i
    cases t with
    | nil =>
      intro _ h2
      cases i <;> simp at h2
    | cons b t2 =>
      rw [show noDDb (a :: b :: t2) = (!(a == '-' && b == '-') && noDDb (b :: t2)) from rfl,
        Bool.and_eq_true] at h
      cases i with
      | zero =>
        intro ha hb
        have ha2 : a = '-' := by simpa using ha
        have hb2 : b = '-' := by simpa using hb
        rw [ha2, hb2] at h
        simp at h
      | succ j =>
        intro ha hb
        exact ih h.2 j (by simpa using ha) (by simpa using hb)

theorem noDDb_no_pfx (l : List Char) (r : List Char) (h : noDDb l = true) :
    ∀ i, pfx ('-' :: '-' :: r) (l.drop i) = false := by
  intro i
  cases hp : pfx ('-' :: '-' :: r) (l.drop i)
  · rfl
  · exfalso
    have h0 := pfx_get _ _ hp 0 (by simp)
    have h1 := pfx_get _ _ hp 1 (by simp)
    rw [List.get?_drop] at h0 h1
    exact noDDb_adj l h i (by simpa using h0) (by simpa using h1)

theorem noDDb_of_adj : ∀ (l : List Char),
    (∀ i, l.get? i = some '-' → l.get? (i + 1) ≠ some '-') → noDDb l = true := by
  intro l
  induction l with
  | nil => intro _; rfl
  | cons a t ih =>
    intro h
    cases t with
    | nil => rfl
    | cons b t2 =>
      rw [show noDDb (a :: b :: t2) = (!(a == '-' && b == '-') && noDDb (b :: t2)) from rfl,
        Bool.and_eq_true]
      constructor
      · by_cases ha : a = '-'
        · have hb : ¬ b = '-' := by
            intro hb2
            exact h 0 (by simp [ha]) (by simp [hb2])
          simp [hb]
        · simp [ha]
      · exact ih (fun i hi => h (i + 1) (by simpa using hi))

theorem cleanChar_ws (c : Char) (h : cleanChar c) : ws c = false := h.1

theorem cleanChar_ne_nl (c : Char) (h : cleanChar c) : c ≠ '\n' := by
  intro hh
  rw [hh] at h
  exact absurd h.1 (by decide)

theorem CDline_dash_pos :
    ∀ j, j < 34 → (("Content-Disposition: param; name=\"".toList).get? j = some '-' → j = 7) := by
  decide

theorem noDDb_CDline (nm : List Char) (hnm : ∀ c ∈ nm, cleanChar c) :
    noDDb (CDlineText nm) = true := by
  apply noDDb_of_adj
  intro i hi hi1
  have hpos : ∀ j, (CDlineText nm).get? j = some '-' → j = 7 := by
    intro j hj
    unfold CDlineText at hj
    rcases Nat.lt_or_ge j 34 with hlt | hge
    · rw [List.append_assoc, List.get?_append (by simpa using hlt)] at hj
      exact CDline_dash_pos j hlt hj
    · exfalso
      rw [List.append_assoc,
        List.get?_append_right (by simpa using hge)] at hj
      have hmem := List.get?_mem hj
      rcases List.mem_append.mp hmem with hm | hm
      · exact (hnm _ hm).2.1 rfl
      · simp at hm
  have h7 := hpos i hi
  have h8 := hpos (i + 1) hi1
  omega

theorem noOcc_CDline (bid nm : List Char) (hnm : ∀ c ∈ nm, cleanChar c) :
    ∀ i, pfx ('-' :: '-' :: bid) ((CDlineText nm).drop i) = false :=
  noDDb_no_pfx _ bid (noDDb_CDline nm hnm)

theorem noOcc_value (bid v : List Char) (hbid : bid ≠ []) (hv : containsSub bid v = false) :
    ∀ i, pfx ('-' :: '-' :: bid) (v.drop i) = false := by
  intro i
  cases hp : pfx ('-' :: '-' :: bid) (v.drop i)
  · rfl
  · exfalso
    have h2 : pfx bid ((v.drop i).drop (['-', '-'] : List Char).length) = true :=
      pfx_append_elim2 ['-', '-'] bid (v.drop i) hp
    rw [List.drop_drop] at h2
    have h3 := containsSub_eq_false bid v hbid hv (i + (['-', '-'] : List Char).length)
    rw [h3] at h2
    exact Bool.false_ne_true h2

theorem noOcc_piece_nl_after (M x b : List Char) (hM : M ≠ []) (hMnl : '\n' ∉ M)
    (hb : b.head? = some '\n') (hx : ∀ i, pfx M (x.drop i) = false) :
    ∀ i, i < x.length → pfx M ((x ++ b).drop i) = false := by
  intro i hi
  cases hp : pfx M ((x ++ b).drop i)
  · rfl
  · exfalso
    rcases Nat.lt_or_ge x.length (i + M.length) with hcross | hfit
    · have hj : x.length - i < M.length := by omega
      have hget := pfx_get M _ hp (x.length - i) hj
      rw [List.get?_drop] at hget
      have hxi : i + (x.length - i) = x.length := by omega
      rw [hxi] at hget
      have hb0 : (x ++ b).get? x.length = some '\n' := by
        cases b with
        | nil => simp at hb
        | cons c0 t0 =>
          have hc0 : c0 = '\n' := by simpa using hb
          subst hc0
          rw [List.get?_append_right le_rfl]
          simp
      rw [hb0] at hget
      exact hMnl (List.get?_mem hget.symm)
    · have h2 : (x ++ b).drop i = x.drop i ++ b :=
        List.drop_append_of_le_length (by omega)
      rw [h2, pfx_append_left _ _ _ (by rw [List.length_drop]; omega), hx i] at hp
      exact Bool.false_ne_true hp

theorem nl_not_mem_marker (bid : List Char) (h : ∀ c ∈ bid, cleanChar c) :
    '\n' ∉ ('-' :: '-' :: bid) := by
  intro hm
  rcases List.mem_cons.mp hm with h1 | h1
  · simp at h1
  · rcases List.mem_cons.mp h1 with h2 | h2
    · simp at h2
    · exact cleanChar_ne_nl _ (h _ h2) rfl

theorem pfx_false_head_nl (M : List Char) (b : List Char)
    (hM0 : M.head? = some '-') : pfx M ('\n' :: b) = false := by
  apply pfx_false_head
  · intro hh
    rw [hh] at hM0
    simp at hM0
  · rw [hM0]
    simp

theorem noOcc_tail (bid nm v b : List Char) (hbne : bid ≠ [])
    (hbc : ∀ c ∈ bid, cleanChar c) (hnm : ∀ c ∈ nm, cleanChar c)
    (hv : containsSub bid v = false) :
    ∀ i, i < (tailText nm v).length →
      pfx ('-' :: '-' :: bid) ((tailText nm v ++ b).drop i) = false := by
  have hM : ('-' :: '-' :: bid) ≠ [] := by simp
  have hM0 : ('-' :: '-' :: bid).head? = some '-' := rfl
  have hMnl : '\n' ∉ ('-' :: '-' :: bid) := nl_not_mem_marker bid hbc
  -- the tail, followed by b, in right-associated form
  have hshape : tailText nm v ++ b
      = ['\n'] ++ (CDlineText nm ++ (['\n'] ++ (['\n'] ++ (v ++ (['\n'] ++ b))))) := by
    unfold tailText
    simp [List.append_assoc]
  have hA5 : ∀ i, i < 1 →
      pfx ('-' :: '-' :: bid) ((['\n'] ++ b).drop i) = false := by
    intro i hi
    have hi0 : i = 0 := by omega
    subst hi0
    exact pfx_false_head_nl _ _ hM0
  have hA45 : ∀ i, i < v.length + 1 →
      pfx ('-' :: '-' :: bid) ((v ++ (['\n'] ++ b)).drop i) = false := by
    apply noOcc_append3
    · exact noOcc_piece_nl_after _ _ _ hM hMnl rfl (noOcc_value bid v hbne hv)
    · exact hA5
  have hA345 : ∀ i, i < 1 + (v.length + 1) →
      pfx ('-' :: '-' :: bid) ((['\n'] ++ (v ++ (['\n'] ++ b))).drop i) = false := by
    have hx : ∀ i, i < (['\n'] : List Char).length →
        pfx ('-' :: '-' :: bid) ((['\n'] ++ (v ++ (['\n'] ++ b))).drop i) = false := by
      intro i hi
      have hi0 : i = 0 := by simpa using hi
      subst hi0
      exact pfx_false_head_nl _ _ hM0
    have h := noOcc_append3 ('-' :: '-' :: bid) ['\n'] (v ++ (['\n'] ++ b))
      (v.length + 1) hx hA45
    simpa using h
  have hA2345 : ∀ i, i < 1 + (1 + (v.length + 1)) →
      pfx ('-' :: '-' :: bid) ((['\n'] ++ (['\n'] ++ (v ++ (['\n'] ++ b)))).drop i) = false := by
    have hx : ∀ i, i < (['\n'] : List Char).length →
        pfx ('-' :: '-' :: bid) ((['\n'] ++ (['\n'] ++ (v ++ (['\n'] ++ b)))).drop i) = false := by
      intro i hi
      have hi0 : i = 0 := by simpa using hi
      subst hi0
      exact pfx_false_head_nl _ _ hM0
    have h := noOcc_append3 ('-' :: '-' :: bid) ['\n'] (['\n'] ++ (v ++ (['\n'] ++ b)))
      (1 + (v.length + 1)) hx hA345
    simpa using h
  have hA12345 : ∀ i, i < (CDlineText nm).length + (1 + (1 + (v.length + 1))) →
      pfx ('-' :: '-' :: bid)
        ((CDlineText nm ++ (['\n'] ++ (['\n'] ++ (v ++ (['\n'] ++ b))))).drop i) = false := by
    have h := noOcc_append3 ('-' :: '-' :: bid) (CDlineText nm)
      (['\n'] ++ (['\n'] ++ (v ++ (['\n'] ++ b)))) (1 + (1 + (v.length + 1)))
      (noOcc_piece_nl_after _ _ _ hM hMnl rfl (noOcc_CDline bid nm hnm)) hA2345
    exact h
  intro i hi
  rw [hshape]
  have hfull : ∀ i2, i2 < 1 + ((CDlineText nm).length + (1 + (1 + (v.length + 1)))) →
      pfx ('-' :: '-' :: bid)
        ((['\n'] ++ (CDlineText nm ++ (['\n'] ++ (['\n'] ++ (v ++ (['\n'] ++ b)))))).drop i2)
        = false := by
    have hx : ∀ i2, i2 < (['\n'] : List Char).length →
        pfx ('-' :: '-' :: bid)
          ((['\n'] ++ (CDlineText nm ++ (['\n'] ++ (['\n'] ++ (v ++ (['\n'] ++ b)))))).drop i2)
          = false := by
      intro i2 hi2
      have hi0 : i2 = 0 := by simpa using hi2
      subst hi0
      exact pfx_false_head_nl _ _ hM0
    have h := noOcc_append3 ('-' :: '-' :: bid) ['\n']
      (CDlineText nm ++ (['\n'] ++ (['\n'] ++ (v ++ (['\n'] ++ b)))))
      ((CDlineText nm).length + (1 + (1 + (v.length + 1)))) hx hA12345
    simpa using h
  apply hfull
  have hlen : (tailText nm v).length
      = 1 + ((CDlineText nm).length + (1 + (1 + (v.length + 1)))) := by
    unfold tailText
    simp [List.length_append]
    omega
  omega

/- Encoder shape equations -/

theorem head?_append_ne (a b : List Char) (ha : a ≠ []) : (a ++ b).head? = a.head? := by
  cases a with
  | nil => exact absurd rfl ha
  | cons c t => rfl

theorem getLast?_append_ne (a b : List Char) (hb : b ≠ []) :
    (a ++ b).getLast? = b.getLast? := by
  rw [← List.head?_reverse, ← List.head?_reverse, List.reverse_append]
  apply head?_append_ne
  simpa using hb

theorem sfx_self_append (p y : List Char) : sfx p (y ++ p) = true := by
  unfold sfx
  rw [List.reverse_append]
  exact pfx_self_append _ _

theorem encodePart_eq (bid nm v : List Char) :
    encodePart bid nm v = ('-' :: '-' :: bid) ++ tailText nm v := by
  unfold encodePart tailText CDlineText
  have h1 : ("\nContent-Disposition: param; name=\"".toList : List Char)
      = ("\n".toList) ++ ("Content-Disposition: param; name=\"".toList) := by decide
  have h2 : ("\"\n\n".toList : List Char) = ("\"".toList) ++ ("\n\n".toList) := by decide
  have h3 : ("--".toList : List Char) = ['-', '-'] := by decide
  rw [h1, h2, h3]
  simp [List.append_assoc]

theorem seq_flatten (bid : List Char) :
    ∀ (ps : List (List Char × List Char)),
      ((ps.map (fun p => encodePart bid p.1 p.2)).flatten)
          ++ ('-' :: '-' :: (bid ++ ("--".toList)))
        = seqText ('-' :: '-' :: bid) (ps.map (fun p => tailText p.1 p.2)) := by
  intro ps
  induction ps with
  | nil => simp [seqText]
  | cons p ps2 ih =>
    simp only [List.map_cons, List.flatten_cons, seqText]
    rw [List.append_assoc, ih, encodePart_eq]

theorem encode_shape (bid tn : List Char) (ps : List (List Char × List Char)) :
    encodeToolCall bid tn ps
      = TOOL_BEGIN ++ '\n'
        :: (("Content-Type: tool-call".toList)
          ++ '\n' :: ((("Boundary-ID: ".toList) ++ bid)
          ++ '\n' :: '\n'
          :: (seqText ('-' :: '-' :: bid)
              (((("tool_name".toList), tn) :: ps).map (fun p => tailText p.1 p.2))
            ++ '\n' :: TOOL_END))) := by
  unfold encodeToolCall
  have hs1 : ("--TOOL_CALL_BEGIN\nContent-Type: tool-call\nBoundary-ID: ".toList : List Char)
      = TOOL_BEGIN ++ '\n'
          :: (("Content-Type: tool-call".toList) ++ '\n' :: ("Boundary-ID: ".toList)) := by
    decide
  have hs3 : ("--\n--TOOL_CALL_END".toList : List Char)
      = ("--".toList) ++ '\n' :: TOOL_END := by decide
  have hs4 : ("\n\n".toList : List Char) = ['\n', '\n'] := by decide
  rw [hs1, hs3, hs4, ← seq_flatten bid ((("tool_name".toList), tn) :: ps)]
  simp only [List.map_cons, List.flatten_cons]
  have h3 : ("--".toList : List Char) = ['-', '-'] := by decide
  rw [h3]
  simp [List.append_assoc]

theorem seqText_ne_nil (bm : List Char) : ∀ (ts : List (List Char)), seqText bm ts ≠ [] := by
  intro ts
  induction ts with
  | nil => simp [seqText]
  | cons t ts2 ih =>
    simp only [seqText, ne_eq, List.append_eq_nil]
    intro hh
    exact ih hh.2

theorem seqText_pfx (bid : List Char) (ts : List (List Char)) :
    pfx ('-' :: '-' :: bid) (seqText ('-' :: '-' :: bid) ts) = true := by
  cases ts with
  | nil =>
    unfold seqText
    exact pfx_self_append _ _
  | cons t ts2 =>
    unfold seqText
    rw [List.append_assoc]
    exact pfx_self_append _ _

theorem seqText_getLast (bid : List Char) (ts : List (List Char)) :
    (seqText ('-' :: '-' :: bid) ts).getLast? = some '-' := by
  induction ts with
  | nil =>
    unfold seqText
    rw [getLast?_append_ne _ _ (by decide)]
    decide
  | cons t ts2 ih =>
    unfold seqText
    rw [List.append_assoc]
    rw [getLast?_append_ne _ _ (by
      intro hh
      exact seqText_ne_nil ('-' :: '-' :: bid) ts2 (List.append_eq_nil.mp hh).2)]
    rw [getLast?_append_ne _ _ (seqText_ne_nil _ _)]
    exact ih

/- pyFind position shifting -/

theorem pyFindAux_base (M : List Char) :
    ∀ (l : List Char) (i : Nat),
      pyFindAux M l i = (pyFindAux M l 0).map (fun j => i + j) := by
  intro l
  induction l with
  | nil =>
    intro i
    unfold pyFindAux
    cases hp : pfx M [] <;> simp [hp]
  | cons c t ih =>
    intro i
    unfold pyFindAux
    cases hp : pfx M (c :: t)
    · rw [if_neg (by simp [hp]), if_neg (by simp [hp])]
      rw [ih (i + 1), ih 1]
      cases haux : pyFindAux M t 0 <;> simp [Nat.add_assoc]
    · rw [if_pos (by simp [hp]), if_pos (by simp [hp])]
      simp

theorem pyFind_pre (pre rest M : List Char) (j : Nat) (h : pyFind rest M 0 = some j) :
    pyFind (pre ++ rest) M pre.length = some (pre.length + j) := by
  unfold pyFind at h ⊢
  rw [List.drop_left]
  rw [pyFindAux_base M rest pre.length]
  simp only [List.drop_zero] at h
  rw [h]
  rfl

theorem pyFind_drop_eq (body M : List Char) (pos : Nat) :
    pyFind body M pos = (pyFindAux M (body.drop pos) 0).map (fun j => pos + j) := by
  unfold pyFind
  exact pyFindAux_base M (body.drop pos) pos

/- Bridges between cleanliness and the string primitives -/

theorem mem_of_head?_eq {α : Type} (l : List α) (c : α) (h : l.head? = some c) : c ∈ l := by
  cases l with
  | nil => simp at h
  | cons a t =>
    have h2 : a = c := by simpa using h
    subst h2
    exact List.mem_cons_self a t

theorem mem_of_getLast?_eq (l : List Char) (c : Char) (h : l.getLast? = some c) : c ∈ l := by
  have h2 : l.reverse.head? = some c := by rwa [List.head?_reverse]
  have h3 := mem_of_head?_eq _ _ h2
  simpa using h3

theorem pyStrip_clean (l : List Char) (h : ∀ c ∈ l, cleanChar c) : pyStrip l = l :=
  pyStrip_eq_self l
    (fun c hc => cleanChar_ws c (h c (mem_of_head?_eq l c hc)))
    (fun c hc => cleanChar_ws c (h c (mem_of_getLast?_eq l c hc)))

theorem nl_not_mem_clean (l : List Char) (h : ∀ c ∈ l, cleanChar c) : '\n' ∉ l :=
  fun hm => cleanChar_ne_nl _ (h _ hm) rfl

theorem getLast?_append_cons (a : List Char) (c : Char) (b : List Char) :
    (a ++ c :: b).getLast? = (c :: b).getLast? :=
  getLast?_append_ne a (c :: b) (by simp)

theorem splitNl_cons_nl (l : List Char) : splitNl ('\n' :: l) = [] :: splitNl l := by
  conv_lhs => rw [splitNl]
  rw [if_pos rfl]

/- The decoder preamble, header scan and body on the encoder output -/

theorem pmtcContent_encode (bid tn : List Char) (ps : List (List Char × List Char))
    (hbne : bid ≠ []) (hbc : ∀ c ∈ bid, cleanChar c) :
    pmtcContent (encodeToolCall bid tn ps)
      = ("Content-Type: tool-call".toList)
        ++ '\n' :: ((("Boundary-ID: ".toList) ++ bid)
        ++ '\n' :: '\n'
        :: seqText ('-' :: '-' :: bid)
            (((("tool_name".toList), tn) :: ps).map (fun p => tailText p.1 p.2))) := by
  rw [encode_shape]
  generalize hSQ : seqText ('-' :: '-' :: bid)
      (((("tool_name".toList), tn) :: ps).map (fun p => tailText p.1 p.2)) = SQ
  have hSQne : SQ ≠ [] := by
    rw [← hSQ]
    exact seqText_ne_nil _ _
  have hSQlast : SQ.getLast? = some '-' := by
    rw [← hSQ]
    exact seqText_getLast bid _
  have h0 : pyStrip (TOOL_BEGIN ++ '\n' :: (("Content-Type: tool-call".toList)
        ++ '\n' :: ((("Boundary-ID: ".toList) ++ bid)
        ++ '\n' :: '\n' :: (SQ ++ '\n' :: TOOL_END))))
      = TOOL_BEGIN ++ '\n' :: (("Content-Type: tool-call".toList)
        ++ '\n' :: ((("Boundary-ID: ".toList) ++ bid)
        ++ '\n' :: '\n' :: (SQ ++ '\n' :: TOOL_END))) := by
    apply pyStrip_eq_self
    · intro c hc
      rw [head?_append_ne _ _ (by decide)] at hc
      have hTB : TOOL_BEGIN.head? = some '-' := by decide
      rw [hTB] at hc
      have h9 : ('-' : Char) = c := Option.some_inj.mp hc
      rw [← h9]
      decide
    · intro c hc
      rw [show TOOL_BEGIN ++ '\n' :: (("Content-Type: tool-call".toList)
            ++ '\n' :: ((("Boundary-ID: ".toList) ++ bid)
            ++ '\n' :: '\n' :: (SQ ++ '\n' :: TOOL_END)))
          = (TOOL_BEGIN ++ '\n' :: (("Content-Type: tool-call".toList)
            ++ '\n' :: ((("Boundary-ID: ".toList) ++ bid)
            ++ '\n' :: '\n' :: SQ))) ++ '\n' :: TOOL_END
          from by simp [List.append_assoc]] at hc
      rw [getLast?_append_cons] at hc
      have hTE : ('\n' :: TOOL_END).getLast? = some 'D' := by decide
      rw [hTE] at hc
      have h9 : ('D' : Char) = c := Option.some_inj.mp hc
      rw [← h9]
      decide
  have h3 : pyStrip ('\n' :: (("Content-Type: tool-call".toList)
        ++ '\n' :: ((("Boundary-ID: ".toList) ++ bid)
        ++ '\n' :: '\n' :: (SQ ++ '\n' :: TOOL_END))))
      = ("Content-Type: tool-call".toList)
        ++ '\n' :: ((("Boundary-ID: ".toList) ++ bid)
        ++ '\n' :: '\n' :: (SQ ++ '\n' :: TOOL_END)) := by
    rw [pyStrip_cons_ws _ _ (by decide)]
    apply pyStrip_eq_self
    · intro c hc
      rw [head?_append_ne _ _ (by decide)] at hc
      have hCT : ("Content-Type: tool-call".toList : List Char).head? = some 'C' := by decide
      rw [hCT] at hc
      have h9 : ('C' : Char) = c := Option.some_inj.mp hc
      rw [← h9]
      decide
    · intro c hc
      rw [show ("Content-Type: tool-call".toList : List Char)
            ++ '\n' :: ((("Boundary-ID: ".toList) ++ bid)
            ++ '\n' :: '\n' :: (SQ ++ '\n' :: TOOL_END))
          = (("Content-Type: tool-call".toList)
            ++ '\n' :: ((("Boundary-ID: ".toList) ++ bid)
            ++ '\n' :: '\n' :: SQ)) ++ '\n' :: TOOL_END
          from by simp [List.append_assoc]] at hc
      rw [getLast?_append_cons] at hc
      have hTE : ('\n' :: TOOL_END).getLast? = some 'D' := by decide
      rw [hTE] at hc
      have h9 : ('D' : Char) = c := Option.some_inj.mp hc
      rw [← h9]
      decide
  have hY1R1 : ("Content-Type: tool-call".toList : List Char)
        ++ '\n' :: ((("Boundary-ID: ".toList) ++ bid)
        ++ '\n' :: '\n' :: (SQ ++ '\n' :: TOOL_END))
      = (("Content-Type: tool-call".toList)
        ++ '\n' :: ((("Boundary-ID: ".toList) ++ bid)
        ++ '\n' :: '\n' :: (SQ ++ ['\n']))) ++ TOOL_END := by
    simp [List.append_assoc]
  have h6 : pyStrip (("Content-Type: tool-call".toList)
        ++ '\n' :: ((("Boundary-ID: ".toList) ++ bid)
        ++ '\n' :: '\n' :: (SQ ++ ['\n'])))
      = ("Content-Type: tool-call".toList)
        ++ '\n' :: ((("Boundary-ID: ".toList) ++ bid) ++ '\n' :: '\n' :: SQ) := by
    rw [show ("Content-Type: tool-call".toList : List Char)
          ++ '\n' :: ((("Boundary-ID: ".toList) ++ bid)
          ++ '\n' :: '\n' :: (SQ ++ ['\n']))
        = (("Content-Type: tool-call".toList)
          ++ '\n' :: ((("Boundary-ID: ".toList) ++ bid) ++ '\n' :: '\n' :: SQ)) ++ ['\n']
        from by simp [List.append_assoc]]
    rw [pyStrip_append_ws _ _ (by decide)]
    apply pyStrip_eq_self
    · intro c hc
      rw [head?_append_ne _ _ (by decide)] at hc
      have hCT : ("Content-Type: tool-call".toList : List Char).head? = some 'C' := by decide
      rw [hCT] at hc
      have h9 : ('C' : Char) = c := Option.some_inj.mp hc
      rw [← h9]
      decide
    · intro c hc
      rw [show ("Content-Type: tool-call".toList : List Char)
            ++ '\n' :: ((("Boundary-ID: ".toList) ++ bid) ++ '\n' :: '\n' :: SQ)
          = (("Content-Type: tool-call".toList)
            ++ '\n' :: ((("Boundary-ID: ".toList) ++ bid) ++ ['\n', '\n'])) ++ SQ
          from by simp [List.append_assoc]] at hc
      rw [getLast?_append_ne _ _ hSQne, hSQlast] at hc
      have h9 : ('-' : Char) = c := Option.some_inj.mp hc
      rw [← h9]
      decide
  simp only [pmtcContent]
  rw [h0]
  rw [if_pos (pfx_self_append TOOL_BEGIN _)]
  rw [List.drop_left]
  rw [h3]
  rw [hY1R1]
  rw [if_pos (sfx_self_append _ _)]
  rw [show ((("Content-Type: tool-call".toList : List Char)
        ++ '\n' :: ((("Boundary-ID: ".toList) ++ bid)
        ++ '\n' :: '\n' :: (SQ ++ ['\n']))) ++ TOOL_END).length - TOOL_END.length
      = (("Content-Type: tool-call".toList : List Char)
        ++ '\n' :: ((("Boundary-ID: ".toList) ++ bid)
        ++ '\n' :: '\n' :: (SQ ++ ['\n']))).length from by simp; omega]
  rw [List.take_left]
  exact h6

theorem splitNl_content (bid tn : List Char) (ps : List (List Char × List Char))
    (hbne : bid ≠ []) (hbc : ∀ c ∈ bid, cleanChar c) :
    splitNl (pmtcContent (encodeToolCall bid tn ps))
      = ("Content-Type: tool-call".toList)
        :: (("Boundary-ID: ".toList) ++ bid)
        :: []
        :: splitNl (seqText ('-' :: '-' :: bid)
            (((("tool_name".toList), tn) :: ps).map (fun p => tailText p.1 p.2))) := by
  rw [pmtcContent_encode bid tn ps hbne hbc]
  rw [splitNl_append_nl _ _ (by decide)]
  rw [splitNl_append_nl _ _ (by
    intro hm
    rcases List.mem_append.mp hm with h | h
    · have h2 : '\n' ∉ ("Boundary-ID: ".toList : List Char) := by decide
      exact h2 h
    · exact nl_not_mem_clean bid hbc h)]
  rw [splitNl_cons_nl]

/- headerScan step lemmas -/

theorem headerScan_skip (l0 : List Char) (rest : List (List Char)) (i : Nat)
    (bid : Option (List Char))
    (h1 : pfx ("Boundary-ID:".toList) (pyStrip l0) = false)
    (h2 : ((pyStrip l0).isEmpty && truthyS bid) = false) :
    headerScan (l0 :: rest) i bid = headerScan rest (i + 1) bid := by
  simp only [headerScan]
  rw [if_neg (by rw [h1]; simp), if_neg (by rw [h2]; simp)]

theorem headerScan_bid (l0 : List Char) (rest : List (List Char)) (i : Nat)
    (bid : Option (List Char))
    (h1 : pfx ("Boundary-ID:".toList) (pyStrip l0) = true) :
    headerScan (l0 :: rest) i bid
      = headerScan rest (i + 1) (some (pyStrip ((pyStrip l0).drop 12))) := by
  simp only [headerScan]
  rw [if_pos h1]

theorem headerScan_stop (l0 : List Char) (rest : List (List Char)) (i : Nat)
    (bid : Option (List Char))
    (h1 : pfx ("Boundary-ID:".toList) (pyStrip l0) = false)
    (h2 : (pyStrip l0).isEmpty = true) (h3 : truthyS bid = true) :
    headerScan (l0 :: rest) i bid = (bid, i + 1) := by
  simp only [headerScan]
  rw [if_neg (by rw [h1]; simp), if_pos (by rw [h2, h3]; rfl)]

theorem truthyS_some_ne (l : List Char) (h : l ≠ []) : truthyS (some l) = true := by
  cases l with
  | nil => exact absurd rfl h
  | cons a t => rfl

theorem pmtcHeader_encode (bid tn : List Char) (ps : List (List Char × List Char))
    (hbne : bid ≠ []) (hbc : ∀ c ∈ bid, cleanChar c) :
    pmtcHeader (encodeToolCall bid tn ps) = (some bid, 3) := by
  unfold pmtcHeader
  rw [splitNl_content bid tn ps hbne hbc]
  rw [headerScan_skip _ _ _ _ (by decide) (by decide)]
  have hstripBI : pyStrip (("Boundary-ID: ".toList) ++ bid)
      = ("Boundary-ID: ".toList) ++ bid := by
    apply pyStrip_eq_self
    · intro c hc
      rw [head?_append_ne _ _ (by decide)] at hc
      have hh : ("Boundary-ID: ".toList : List Char).head? = some 'B' := by decide
      rw [hh] at hc
      have h9 : ('B' : Char) = c := Option.some_inj.mp hc
      rw [← h9]
      decide
    · intro c hc
      rw [getLast?_append_ne _ _ hbne] at hc
      exact cleanChar_ws c (hbc c (mem_of_getLast?_eq bid c hc))
  have hsplitBI : ("Boundary-ID: ".toList : List Char) ++ bid
      = ("Boundary-ID:".toList) ++ (' ' :: bid) := by
    have h12 : ("Boundary-ID: ".toList : List Char) = ("Boundary-ID:".toList) ++ [' '] := by
      decide
    rw [h12, List.append_assoc]
    rfl
  have hpfx : pfx ("Boundary-ID:".toList) (pyStrip (("Boundary-ID: ".toList) ++ bid))
      = true := by
    rw [hstripBI, hsplitBI]
    exact pfx_self_append _ _
  rw [headerScan_bid _ _ _ _ hpfx]
  have hdrop : pyStrip ((pyStrip (("Boundary-ID: ".toList) ++ bid)).drop 12) = bid := by
    rw [hstripBI, hsplitBI]
    rw [show (12 : Nat) = ("Boundary-ID:".toList : List Char).length from by decide]
    rw [List.drop_left]
    rw [pyStrip_cons_ws _ _ (by decide)]
    exact pyStrip_clean bid hbc
  rw [hdrop]
  rw [headerScan_stop _ _ _ _ (by decide) (by decide) (truthyS_some_ne bid hbne)]

theorem pmtcBody_encode (bid tn : List Char) (ps : List (List Char × List Char))
    (hbne : bid ≠ []) (hbc : ∀ c ∈ bid, cleanChar c) :
    joinNl ((splitNl (pmtcContent (encodeToolCall bid tn ps))).drop 3)
      = seqText ('-' :: '-' :: bid)
          (((("tool_name".toList), tn) :: ps).map (fun p => tailText p.1 p.2)) := by
  rw [splitNl_content bid tn ps hbne hbc]
  have hd : ∀ (a b c : List Char) (r : List (List Char)), (a :: b :: c :: r).drop 3 = r :=
    fun _ _ _ _ => rfl
  rw [hd]
  exact joinNl_splitNl _

/- The boundary-splitting loop on the encoder output -/

theorem take_append_len_add : ∀ (a x : List Char) (k : Nat),
    (a ++ x).take (a.length + k) = a ++ x.take k := by
  intro a
  induction a with
  | nil => intro x k; simp
  | cons c t ih =>
    intro x k
    simp only [List.cons_append, List.length_cons]
    rw [show t.length + 1 + k = (t.length + k) + 1 from by omega]
    rw [List.take_succ_cons]
    rw [ih]

theorem tailText_shape (nm v : List Char) :
    tailText nm v = '\n' :: ((CDlineText nm ++ ('\n' :: '\n' :: v)) ++ ['\n']) := by
  unfold tailText
  rw [show ("\n".toList : List Char) = ['\n'] from by decide,
    show ("\n\n".toList : List Char) = ['\n', '\n'] from by decide]
  simp [List.append_assoc]

theorem seqText_length_ge (bid : List Char) :
    ∀ ts : List (List Char), ts.length ≤ (seqText ('-' :: '-' :: bid) ts).length := by
  intro ts
  induction ts with
  | nil => simp
  | cons t ts2 ih =>
    simp only [seqText, List.length_append, List.length_cons]
    omega

theorem partsLoop_go (bid : List Char) (hbne : bid ≠ []) (hbc : ∀ c ∈ bid, cleanChar c) :
    ∀ (ts : List (List Char × List Char)) (t pre : List Char) (fuel : Nat)
      (acc : List (List Char)),
      (∀ i, i < t.length →
        pfx ('-' :: '-' :: bid)
          ((t ++ seqText ('-' :: '-' :: bid) (ts.map (fun p => tailText p.1 p.2))).drop i)
          = false) →
      (∀ p ∈ ts, (∀ c ∈ p.1, cleanChar c) ∧ containsSub bid p.2 = false) →
      ts.length + 1 ≤ fuel →
      partsLoop ('-' :: '-' :: bid) (('-' :: '-' :: bid) ++ ("--".toList)) fuel
        (pre ++ (t ++ seqText ('-' :: '-' :: bid) (ts.map (fun p => tailText p.1 p.2))))
        pre.length acc
      = acc ++ ts.map (fun p => tailText p.1 p.2) := by
  intro ts
  induction ts with
  | nil =>
    intro t pre fuel acc ht hts hfuel
    cases fuel with
    | zero => simp only [List.length_nil] at hfuel; omega
    | succ f =>
      simp only [List.map_nil] at ht ⊢
      have hfind : pyFind (pre ++ (t ++ seqText ('-' :: '-' :: bid) []))
            ('-' :: '-' :: bid) pre.length
          = some (pre.length + t.length) := by
        apply pyFind_found _ _ _ _ (by simp) (by omega)
        · intro j hj1 hj2
          rw [drop_append_ge pre _ j hj1]
          exact ht (j - pre.length) (by omega)
        · rw [show pre ++ (t ++ seqText ('-' :: '-' :: bid) [])
              = (pre ++ t) ++ seqText ('-' :: '-' :: bid) [] from by rw [List.append_assoc]]
          rw [show pre.length + t.length = (pre ++ t).length from by simp]
          rw [List.drop_left]
          exact seqText_pfx bid []
      simp only [partsLoop]
      rw [hfind]
      dsimp only
      have hdrop : (pre ++ (t ++ seqText ('-' :: '-' :: bid) [])).drop (pre.length + t.length)
          = seqText ('-' :: '-' :: bid) [] := by
        rw [show pre ++ (t ++ seqText ('-' :: '-' :: bid) [])
            = (pre ++ t) ++ seqText ('-' :: '-' :: bid) [] from by rw [List.append_assoc]]
        rw [show pre.length + t.length = (pre ++ t).length from by simp]
        exact List.drop_left _ _
      rw [hdrop]
      rw [if_pos (by
        simp only [seqText]
        exact List.take_length _)]
      simp
  | cons p ts2 ih =>
    intro t pre fuel acc ht hts hfuel
    cases fuel with
    | zero => simp only [List.length_cons] at hfuel; omega
    | succ f =>
      simp only [List.map_cons, seqText] at ht ⊢
      have hmem := hts p (List.mem_cons_self p ts2)
      have hlen3 : ((pre ++ t) ++ ('-' :: '-' :: bid)).length
          = pre.length + t.length + ('-' :: '-' :: bid).length := by
        simp
        omega
      have hb3 : pre ++ (t ++ (('-' :: '-' :: bid) ++ tailText p.1 p.2
            ++ seqText ('-' :: '-' :: bid) (List.map (fun p => tailText p.1 p.2) ts2)))
          = ((pre ++ t) ++ ('-' :: '-' :: bid))
            ++ (tailText p.1 p.2
              ++ seqText ('-' :: '-' :: bid) (List.map (fun p => tailText p.1 p.2) ts2)) := by
        simp [List.append_assoc]
      have hb4 : pre ++ (t ++ (('-' :: '-' :: bid) ++ tailText p.1 p.2
            ++ seqText ('-' :: '-' :: bid) (List.map (fun p => tailText p.1 p.2) ts2)))
          = (((pre ++ t) ++ ('-' :: '-' :: bid)) ++ tailText p.1 p.2)
            ++ seqText ('-' :: '-' :: bid) (List.map (fun p => tailText p.1 p.2) ts2) := by
        simp [List.append_assoc]
      have hlen4 : ((((pre ++ t) ++ ('-' :: '-' :: bid)) ++ tailText p.1 p.2)).length
          = pre.length + t.length + ('-' :: '-' :: bid).length
            + (tailText p.1 p.2).length := by
        simp
        omega
      have hfind : pyFind (pre ++ (t ++ (('-' :: '-' :: bid) ++ tailText p.1 p.2
              ++ seqText ('-' :: '-' :: bid) (List.map (fun p => tailText p.1 p.2) ts2))))
            ('-' :: '-' :: bid) pre.length
          = some (pre.length + t.length) := by
        apply pyFind_found _ _ _ _ (by simp) (by omega)
        · intro j hj1 hj2
          rw [drop_append_ge pre _ j hj1]
          exact ht (j - pre.length) (by omega)
        · rw [show pre ++ (t ++ (('-' :: '-' :: bid) ++ tailText p.1 p.2
                ++ seqText ('-' :: '-' :: bid) (List.map (fun p => tailText p.1 p.2) ts2)))
              = (pre ++ t) ++ (('-' :: '-' :: bid) ++ tailText p.1 p.2
                ++ seqText ('-' :: '-' :: bid) (List.map (fun p => tailText p.1 p.2) ts2))
              from by simp [List.append_assoc]]
          rw [show pre.length + t.length = (pre ++ t).length from by simp]
          rw [List.drop_left]
          rw [List.append_assoc]
          exact pfx_self_append _ _
      simp only [partsLoop]
      rw [hfind]
      dsimp only
      have hdropB : (pre ++ (t ++ (('-' :: '-' :: bid) ++ tailText p.1 p.2
              ++ seqText ('-' :: '-' :: bid)
                (List.map (fun p => tailText p.1 p.2) ts2)))).drop (pre.length + t.length)
          = ('-' :: '-' :: bid) ++ tailText p.1 p.2
              ++ seqText ('-' :: '-' :: bid) (List.map (fun p => tailText p.1 p.2) ts2) := by
        rw [show pre ++ (t ++ (('-' :: '-' :: bid) ++ tailText p.1 p.2
              ++ seqText ('-' :: '-' :: bid) (List.map (fun p => tailText p.1 p.2) ts2)))
            = (pre ++ t) ++ (('-' :: '-' :: bid) ++ tailText p.1 p.2
              ++ seqText ('-' :: '-' :: bid) (List.map (fun p => tailText p.1 p.2) ts2))
            from by simp [List.append_assoc]]
        rw [show pre.length + t.length = (pre ++ t).length from by simp]
        exact List.drop_left _ _
      rw [hdropB]
      rw [if_neg (by
        intro heq
        rw [List.append_assoc] at heq
        rw [show (('-' :: '-' :: bid) ++ ("--".toList)).length
            = ('-' :: '-' :: bid).length + 2 from by simp] at heq
        rw [take_append_len_add] at heq
        have heq2 := List.append_cancel_left heq
        rw [tailText_shape] at heq2
        rw [List.cons_append] at heq2
        rw [show (2 : Nat) = 1 + 1 from rfl] at heq2
        rw [List.take_succ_cons] at heq2
        rw [show ("--".toList : List Char) = '-' :: ['-'] from by decide] at heq2
        injection heq2 with h1 h2
        exact absurd h1 (by decide))]
      have hfind2 : pyFind (pre ++ (t ++ (('-' :: '-' :: bid) ++ tailText p.1 p.2
              ++ seqText ('-' :: '-' :: bid) (List.map (fun p => tailText p.1 p.2) ts2))))
            ('-' :: '-' :: bid) (pre.length + t.length + ('-' :: '-' :: bid).length)
          = some (pre.length + t.length + ('-' :: '-' :: bid).length
              + (tailText p.1 p.2).length) := by
        apply pyFind_found _ _ _ _ (by simp) (by omega)
        · intro j hj1 hj2
          rw [hb3]
          rw [drop_append_ge _ _ j (by rw [hlen3]; omega)]
          apply noOcc_tail bid p.1 p.2 _ hbne hbc hmem.1 hmem.2
          rw [hlen3]
          omega
        · rw [hb4]
          rw [show pre.length + t.length + ('-' :: '-' :: bid).length
              + (tailText p.1 p.2).length
              = ((((pre ++ t) ++ ('-' :: '-' :: bid)) ++ tailText p.1 p.2)).length
              from hlen4.symm]
          rw [List.drop_left]
          exact seqText_pfx bid _
      rw [hfind2]
      dsimp only
      have hdropPS : (pre ++ (t ++ (('-' :: '-' :: bid) ++ tailText p.1 p.2
              ++ seqText ('-' :: '-' :: bid)
                (List.map (fun p => tailText p.1 p.2) ts2)))).drop
            (pre.length + t.length + ('-' :: '-' :: bid).length)
          = tailText p.1 p.2
            ++ seqText ('-' :: '-' :: bid) (List.map (fun p => tailText p.1 p.2) ts2) := by
        rw [hb3]
        rw [show pre.length + t.length + ('-' :: '-' :: bid).length
            = ((pre ++ t) ++ ('-' :: '-' :: bid)).length from hlen3.symm]
        exact List.drop_left _ _
      rw [hdropPS]
      rw [show pre.length + t.length + ('-' :: '-' :: bid).length + (tailText p.1 p.2).length
          - (pre.length + t.length + ('-' :: '-' :: bid).length)
          = (tailText p.1 p.2).length from by omega]
      rw [List.take_left]
      rw [hb3]
      rw [show pre.length + t.length + ('-' :: '-' :: bid).length
          = ((pre ++ t) ++ ('-' :: '-' :: bid)).length from hlen3.symm]
      rw [ih (tailText p.1 p.2) ((pre ++ t) ++ ('-' :: '-' :: bid)) f
        (acc ++ [tailText p.1 p.2])
        (noOcc_tail bid p.1 p.2 _ hbne hbc hmem.1 hmem.2)
        (fun q hq => hts q (List.mem_cons_of_mem p hq))
        (by simp only [List.length_cons] at hfuel; omega)]
      simp

/- The regex search for the declared parameter name -/

theorem P0_no_pat_fit : ∀ i, i < 23 →
    pfx ("name=\"".toList) (("Content-Disposition: param; ".toList).drop i) = false := by
  decide

theorem P0_tail_no_n : ∀ i, i < 28 → 23 ≤ i →
    ¬ ("Content-Disposition: param; ".toList : List Char).get? i = some 'n' := by
  decide

theorem P0_no_pat (s : List Char) :
    ∀ i, i < ("Content-Disposition: param; ".toList : List Char).length →
      pfx ("name=\"".toList) ((("Content-Disposition: param; ".toList) ++ s).drop i)
        = false := by
  intro i hi
  have hlen : ("Content-Disposition: param; ".toList : List Char).length = 28 := by decide
  cases hp : pfx ("name=\"".toList) ((("Content-Disposition: param; ".toList) ++ s).drop i)
  · rfl
  · exfalso
    rcases Nat.lt_or_ge i 23 with h1 | h1
    · have h2 : ((("Content-Disposition: param; ".toList) ++ s).drop i)
          = ("Content-Disposition: param; ".toList).drop i ++ s :=
        List.drop_append_of_le_length (by omega)
      rw [h2] at hp
      rw [pfx_append_left _ _ _ (by
        rw [List.length_drop, hlen]
        have h6 : ("name=\"".toList : List Char).length = 6 := by decide
        rw [h6]
        omega)] at hp
      rw [P0_no_pat_fit i h1] at hp
      exact Bool.false_ne_true hp
    · have hh := pfx_head _ _ hp (by decide)
      rw [head?_drop] at hh
      have hpn : ("name=\"".toList : List Char).head? = some 'n' := by decide
      rw [hpn] at hh
      rw [List.get?_append hi] at hh
      exact P0_tail_no_n i (by omega) h1 hh

theorem reSearch_skip : ∀ (x s : List Char),
    (∀ i, i < x.length → pfx ("name=\"".toList) ((x ++ s).drop i) = false) →
    reSearchName (x ++ s) = reSearchName s := by
  intro x
  induction x with
  | nil => intro s _; rfl
  | cons c t ih =>
    intro s hx
    have h0 := hx 0 (by simp)
    simp only [List.drop_zero, List.cons_append] at h0
    rw [List.cons_append]
    conv_lhs => rw [reSearchName]
    rw [if_neg (by rw [h0]; simp)]
    exact ih s (fun i hi => by
      have h9 := hx (i + 1) (by simpa using Nat.succ_lt_succ hi)
      simpa using h9)

theorem reSearchName_CDline (nm : List Char) (hne : nm ≠ [])
    (hnm : ∀ c ∈ nm, cleanChar c) :
    reSearchName (CDlineText nm) = some nm := by
  have hsplit : CDlineText nm
      = ("Content-Disposition: param; ".toList)
        ++ (("name=\"".toList) ++ (nm ++ ("\"".toList))) := by
    unfold CDlineText
    rw [show ("Content-Disposition: param; name=\"".toList : List Char)
        = ("Content-Disposition: param; ".toList) ++ ("name=\"".toList) from by decide]
    simp [List.append_assoc]
  rw [hsplit, reSearch_skip _ _ (fun i hi => P0_no_pat _ i hi)]
  rw [show ("name=\"".toList : List Char) ++ (nm ++ ("\"".toList))
      = 'n' :: (("ame=\"".toList) ++ (nm ++ ("\"".toList))) from by
    rw [show ("name=\"".toList : List Char) = 'n' :: ("ame=\"".toList) from by decide]
    rfl]
  conv_lhs => rw [reSearchName]
  rw [if_pos (by
    rw [← List.cons_append]
    rw [show ('n' :: ("ame=\"".toList) : List Char) = ("name=\"".toList) from by decide]
    exact pfx_self_append _ _)]
  dsimp only
  have hdrop6 : ('n' :: (("ame=\"".toList) ++ (nm ++ ("\"".toList)))).drop 6
      = nm ++ ("\"".toList) := by
    rw [← List.cons_append]
    rw [show ('n' :: ("ame=\"".toList) : List Char) = ("name=\"".toList) from by decide]
    rw [show (6 : Nat) = ("name=\"".toList : List Char).length from by decide]
    exact List.drop_left _ _
  rw [hdrop6]
  have hcap : (nm ++ ("\"".toList)).takeWhile (fun c => !(c == '"')) = nm := by
    rw [show ("\"".toList : List Char) = '"' :: [] from by decide]
    apply takeWhile_all_append
    · intro c hc
      have h9 := (hnm c hc).2.2
      simp [h9]
    · decide
  rw [hcap]
  rw [if_pos (by
    have hemp : nm.isEmpty = false := by
      cases nm with
      | nil => exact absurd rfl hne
      | cons a t2 => rfl
    rw [hemp]
    simp only [Bool.not_false, Bool.true_and, decide_eq_true_eq, List.length_append]
    have h1 : ("\"".toList : List Char).length = 1 := by decide
    rw [h1]
    omega)]

/- The per-part scan on the encoded Content-Disposition line -/

theorem pyStrip_CDline (nm : List Char) : pyStrip (CDlineText nm) = CDlineText nm := by
  apply pyStrip_eq_self
  · intro c hc
    unfold CDlineText at hc
    rw [head?_append_ne _ _ (by
      intro hh
      have h2 := List.append_eq_nil.mp hh
      have h3 : ("Content-Disposition: param; name=\"".toList : List Char) ≠ [] := by decide
      exact h3 h2.1)] at hc
    rw [head?_append_ne _ _ (by decide)] at hc
    have hh : ("Content-Disposition: param; name=\"".toList : List Char).head? = some 'C' := by
      decide
    rw [hh] at hc
    have h9 : ('C' : Char) = c := Option.some_inj.mp hc
    rw [← h9]
    decide
  · intro c hc
    unfold CDlineText at hc
    rw [getLast?_append_ne _ _ (by decide)] at hc
    have hh : ("\"".toList : List Char).getLast? = some '"' := by decide
    rw [hh] at hc
    have h9 : ('"' : Char) = c := Option.some_inj.mp hc
    rw [← h9]
    decide

theorem pfx_CD (nm : List Char) :
    pfx ("Content-Disposition:".toList) (CDlineText nm) = true := by
  have hsplit : CDlineText nm
      = ("Content-Disposition:".toList)
        ++ (((" param; name=\"".toList) ++ nm) ++ ("\"".toList)) := by
    unfold CDlineText
    rw [show ("Content-Disposition: param; name=\"".toList : List Char)
        = ("Content-Disposition:".toList) ++ (" param; name=\"".toList) from by decide]
    simp [List.append_assoc]
  rw [hsplit]
  exact pfx_self_append _ _

theorem pyStrip_tailText (nm v : List Char) (hvne : v ≠ [])
    (hvlast : ∀ c, v.getLast? = some c → ws c = false) :
    pyStrip (tailText nm v) = CDlineText nm ++ ('\n' :: '\n' :: v) := by
  rw [tailText_shape]
  rw [pyStrip_cons_ws _ _ (by decide)]
  rw [pyStrip_append_ws _ _ (by decide)]
  apply pyStrip_eq_self
  · intro c hc
    rw [head?_append_ne _ _ (by
      unfold CDlineText
      intro hh
      have h2 := List.append_eq_nil.mp hh
      have h3 := List.append_eq_nil.mp h2.1
      have h4 : ("Content-Disposition: param; name=\"".toList : List Char) ≠ [] := by decide
      exact h4 h3.1)] at hc
    unfold CDlineText at hc
    rw [head?_append_ne _ _ (by
      intro hh
      have h2 := List.append_eq_nil.mp hh
      have h3 : ("Content-Disposition: param; name=\"".toList : List Char) ≠ [] := by decide
      exact h3 h2.1)] at hc
    rw [head?_append_ne _ _ (by decide)] at hc
    have hh : ("Content-Disposition: param; name=\"".toList : List Char).head? = some 'C' := by
      decide
    rw [hh] at hc
    have h9 : ('C' : Char) = c := Option.some_inj.mp hc
    rw [← h9]
    decide
  · intro c hc
    rw [getLast?_append_cons] at hc
    rw [List.getLast?_cons_cons] at hc
    rw [show ('\n' :: v : List Char) = ['\n'] ++ v from rfl] at hc
    rw [getLast?_append_ne _ _ hvne] at hc
    exact hvlast c hc

theorem nl_not_mem_CDline (nm : List Char) (hnm : ∀ c ∈ nm, cleanChar c) :
    '\n' ∉ CDlineText nm := by
  unfold CDlineText
  intro hm
  rcases List.mem_append.mp hm with h | h
  · rcases List.mem_append.mp h with h2 | h2
    · have h3 : '\n' ∉ ("Content-Disposition: param; name=\"".toList : List Char) := by decide
      exact h3 h2
    · exact nl_not_mem_clean nm hnm h2
  · have h3 : '\n' ∉ ("\"".toList : List Char) := by decide
    exact h3 h

theorem splitNl_part (nm v : List Char) (hnm : ∀ c ∈ nm, cleanChar c) :
    splitNl (CDlineText nm ++ ('\n' :: '\n' :: v))
      = CDlineText nm :: [] :: splitNl v := by
  rw [splitNl_append_nl _ _ (nl_not_mem_CDline nm hnm)]
  rw [splitNl_cons_nl]

theorem partScan_cd (l0 : List Char) (rest : List (List Char)) (i : Nat)
    (pn : Option (List Char)) (nm2 : List Char)
    (h1 : pfx ("Content-Disposition:".toList) (pyStrip l0) = true)
    (h2 : reSearchName (pyStrip l0) = some nm2) :
    partScan (l0 :: rest) i pn = partScan rest (i + 1) (some nm2) := by
  simp only [partScan]
  rw [if_pos h1, h2]

theorem partScan_stop (l0 : List Char) (rest : List (List Char)) (i : Nat)
    (pn : Option (List Char))
    (h1 : pfx ("Content-Disposition:".toList) (pyStrip l0) = false)
    (h2 : (pyStrip l0).isEmpty = true) (h3 : truthyS pn = true) :
    partScan (l0 :: rest) i pn = (pn, i + 1) := by
  simp only [partScan]
  rw [if_neg (by rw [h1]; simp), if_pos (by rw [h2, h3]; rfl)]

/- Trailing blank-line pop on the encoded value -/

theorem getLast?_exists (v : List Char) (hvne : v ≠ []) : ∃ c, v.getLast? = some c := by
  cases hr : v.reverse with
  | nil => exact absurd (List.reverse_eq_nil_iff.mp hr) hvne
  | cons c t => exact ⟨c, by rw [← List.head?_reverse, hr]; rfl⟩

theorem getLast?_cons_ne_generic {α : Type} (c : α) (l : List α) (h : l ≠ []) :
    (c :: l).getLast? = l.getLast? := by
  cases l with
  | nil => exact absurd rfl h
  | cons b t => exact List.getLast?_cons_cons

theorem splitNl_last_mem : ∀ (v : List Char) (c : Char), v.getLast? = some c → c ≠ '\n' →
    ∀ l, (splitNl v).getLast? = some l → c ∈ l := by
  intro v
  induction v with
  | nil => intro c hc _ l _; simp at hc
  | cons a t ih =>
    intro c hc hcnl l hl
    cases t with
    | nil =>
      have hac : a = c := by simpa using hc
      subst hac
      rw [show splitNl [a] = [[a]] from by
        unfold splitNl
        rw [if_neg hcnl]
        rfl] at hl
      have hla : [a] = l := by simpa using hl
      subst hla
      simp
    | cons b t2 =>
      rw [List.getLast?_cons_cons] at hc
      by_cases ha : a = '\n'
      · subst ha
        rw [splitNl_cons_nl] at hl
        rw [getLast?_cons_ne_generic _ _ (splitNl_ne_nil _)] at hl
        exact ih c hc hcnl l hl
      · cases hs : splitNl (b :: t2) with
        | nil => exact absurd hs (splitNl_ne_nil _)
        | cons h0 r =>
          have hsplit2 : splitNl (a :: b :: t2) = (a :: h0) :: r := by
            conv_lhs => rw [splitNl]
            rw [if_neg ha, hs]
          rw [hsplit2] at hl
          cases r with
          | nil =>
            have hl2 : a :: h0 = l := by simpa using hl
            subst hl2
            have h9 := ih c hc hcnl h0 (by rw [hs]; rfl)
            exact List.mem_cons_of_mem a h9
          | cons r0 r2 =>
            rw [getLast?_cons_ne_generic _ _ (by simp)] at hl
            exact ih c hc hcnl l (by
              rw [hs]
              rw [getLast?_cons_ne_generic _ _ (by simp)]
              exact hl)

theorem popTrailing_id (L : List (List Char))
    (h : ∀ l, L.getLast? = some l → (pyStrip l).isEmpty = false) : popTrailing L = L := by
  unfold popTrailing
  rw [dropWhile_eq_self_of_head _ _ (fun l hl => by
    rw [List.head?_reverse] at hl
    exact h l hl)]
  exact List.reverse_reverse L

theorem popTrailing_splitNl (v : List Char) (hvne : v ≠ [])
    (hvlast : ∀ c, v.getLast? = some c → ws c = false) :
    popTrailing (splitNl v) = splitNl v := by
  obtain ⟨c, hc⟩ := getLast?_exists v hvne
  have hcw := hvlast c hc
  have hcnl : c ≠ '\n' := by
    intro hh
    rw [hh] at hcw
    exact absurd hcw (by decide)
  apply popTrailing_id
  intro l hl
  exact pyStrip_isEmpty_false l c (splitNl_last_mem v c hc hcnl l hl) hcw

/- The per-part fold of the decoder -/

theorem dictInsert_fresh : ∀ (acc : List (List Char × List Char)) (nm v : List Char),
    (∀ q ∈ acc, q.1 ≠ nm) → dictInsert acc nm v = acc ++ [(nm, v)] := by
  intro acc
  induction acc with
  | nil => intro nm v _; rfl
  | cons q rest ih =>
    intro nm v h
    obtain ⟨k0, v0⟩ := q
    simp only [dictInsert]
    rw [if_neg (h (k0, v0) (List.mem_cons_self _ _))]
    rw [ih nm v (fun q2 hq2 => h q2 (List.mem_cons_of_mem _ hq2))]
    rfl

theorem foldParts_param (nm v : List Char) (rest : List (List Char))
    (tn0 : Option (List Char)) (ps0 : List (List Char × List Char))
    (hnmne : nm ≠ []) (hnm : ∀ c ∈ nm, cleanChar c)
    (hvne : v ≠ []) (hvlast : ∀ c, v.getLast? = some c → ws c = false)
    (hnt : nm ≠ ("tool_name".toList)) :
    foldParts (tailText nm v :: rest) tn0 ps0
      = foldParts rest tn0 (dictInsert ps0 nm v) := by
  simp only [foldParts]
  rw [pyStrip_tailText nm v hvne hvlast]
  rw [if_neg (by simp [List.isEmpty_iff])]
  rw [splitNl_part nm v hnm]
  rw [partScan_cd _ _ _ _ nm (by rw [pyStrip_CDline]; exact pfx_CD nm)
    (by rw [pyStrip_CDline]; exact reSearchName_CDline nm hnmne hnm)]
  rw [partScan_stop _ _ _ _ (by decide) (by decide) (truthyS_some_ne nm hnmne)]
  dsimp only
  rw [if_pos (truthyS_some_ne nm hnmne)]
  have hd2 : ∀ (x y : List Char) (r : List (List Char)), (x :: y :: r).drop (0 + 1 + 1) = r :=
    fun _ _ _ => rfl
  rw [hd2]
  rw [popTrailing_splitNl v hvne hvlast, joinNl_splitNl]
  rw [show (some nm).getD ([] : List Char) = nm from rfl]
  rw [if_neg hnt]

theorem foldParts_tool (tn2 : List Char) (rest : List (List Char))
    (tn0 : Option (List Char)) (ps0 : List (List Char × List Char))
    (htne : tn2 ≠ []) (htc : ∀ c ∈ tn2, cleanChar c) :
    foldParts (tailText ("tool_name".toList) tn2 :: rest) tn0 ps0
      = foldParts rest (some (pyStrip tn2)) ps0 := by
  have hvlast : ∀ c, tn2.getLast? = some c → ws c = false :=
    fun c hc => cleanChar_ws c (htc c (mem_of_getLast?_eq tn2 c hc))
  simp only [foldParts]
  rw [pyStrip_tailText _ tn2 htne hvlast]
  rw [if_neg (by simp [List.isEmpty_iff])]
  rw [splitNl_part _ tn2 (by decide)]
  rw [partScan_cd _ _ _ _ ("tool_name".toList)
    (by rw [pyStrip_CDline]; exact pfx_CD _)
    (by rw [pyStrip_CDline]; exact reSearchName_CDline _ (by decide) (by decide))]
  rw [partScan_stop _ _ _ _ (by decide) (by decide) (truthyS_some_ne _ (by decide))]
  dsimp only
  rw [if_pos (truthyS_some_ne _ (by decide))]
  have hd2 : ∀ (x y : List Char) (r : List (List Char)), (x :: y :: r).drop (0 + 1 + 1) = r :=
    fun _ _ _ => rfl
  rw [hd2]
  rw [popTrailing_splitNl tn2 htne hvlast, joinNl_splitNl]
  rw [show (some ("tool_name".toList)).getD ([] : List Char) = ("tool_name".toList) from rfl]
  rw [if_pos rfl]

theorem foldParts_run : ∀ (ps : List (List Char × List Char))
      (tn0 : Option (List Char)) (acc : List (List Char × List Char)),
    (∀ p ∈ ps, p.1 ≠ [] ∧ (∀ c ∈ p.1, cleanChar c) ∧ p.1 ≠ ("tool_name".toList)
      ∧ p.2 ≠ [] ∧ (∀ c, p.2.getLast? = some c → ws c = false)) →
    (∀ p ∈ ps, ∀ q ∈ acc, q.1 ≠ p.1) →
    (ps.map Prod.fst).Nodup →
    foldParts (ps.map (fun p => tailText p.1 p.2)) tn0 acc = (tn0, acc ++ ps) := by
  intro ps
  induction ps with
  | nil => intro tn0 acc _ _ _; simp [foldParts]
  | cons p ps2 ih =>
    intro tn0 acc hps hfresh hnodup
    have hp := hps p (List.mem_cons_self p ps2)
    simp only [List.map_cons]
    rw [foldParts_param p.1 p.2 _ tn0 acc hp.1 hp.2.1 hp.2.2.2.1 hp.2.2.2.2 hp.2.2.1]
    rw [dictInsert_fresh acc p.1 p.2 (fun q hq => hfresh p (List.mem_cons_self p ps2) q hq)]
    rw [ih tn0 (acc ++ [(p.1, p.2)])
      (fun q hq => hps q (List.mem_cons_of_mem p hq))
      (fun q hq r hr => by
        rcases List.mem_append.mp hr with h1 | h1
        · exact hfresh q (List.mem_cons_of_mem p hq) r h1
        · have hr2 : r = (p.1, p.2) := by simpa using h1
          subst hr2
          intro hh
          have hh2 : p.1 = q.1 := hh
          simp only [List.map_cons, List.nodup_cons] at hnodup
          apply hnodup.1
          rw [hh2]
          exact List.mem_map_of_mem Prod.fst hq)
      (by simp only [List.map_cons, List.nodup_cons] at hnodup; exact hnodup.2)]
    simp [List.append_assoc]

theorem pmtcResult_encode (bid tn : List Char) (ps : List (List Char × List Char))
    (hbne : bid ≠ []) (hbc : ∀ c ∈ bid, cleanChar c)
    (htne : tn ≠ []) (htc : ∀ c ∈ tn, cleanChar c) (htv : containsSub bid tn = false)
    (hps : ∀ p ∈ ps, p.1 ≠ [] ∧ (∀ c ∈ p.1, cleanChar c) ∧ p.1 ≠ ("tool_name".toList)
      ∧ p.2 ≠ [] ∧ (∀ c, p.2.getLast? = some c → ws c = false)
      ∧ containsSub bid p.2 = false)
    (hnodup : (ps.map Prod.fst).Nodup) :
    pmtcResult (encodeToolCall bid tn ps) = (some tn, ps) := by
  simp only [pmtcResult]
  rw [pmtcHeader_encode bid tn ps hbne hbc]
  rw [show ((some bid, 3) : Option (List Char) × Nat).2 = 3 from rfl]
  rw [show ((some bid, 3) : Option (List Char) × Nat).1.getD [] = bid from rfl]
  rw [pmtcBody_encode bid tn ps hbne hbc]
  rw [show ("--".toList : List Char) ++ bid = '-' :: '-' :: bid from by
    rw [show ("--".toList : List Char) = ['-', '-'] from by decide]
    rfl]
  have hts : ∀ p ∈ ((("tool_name".toList), tn) :: ps),
      (∀ c ∈ p.1, cleanChar c) ∧ containsSub bid p.2 = false := by
    intro p hp
    rcases List.mem_cons.mp hp with h1 | h1
    · subst h1
      constructor
      · show ∀ c ∈ ("tool_name".toList : List Char), cleanChar c
        decide
      · exact htv
    · exact ⟨(hps p h1).2.1, (hps p h1).2.2.2.2.2⟩
  have hrun := partsLoop_go bid hbne hbc ((("tool_name".toList), tn) :: ps) [] []
    ((seqText ('-' :: '-' :: bid)
      (((("tool_name".toList), tn) :: ps).map (fun p => tailText p.1 p.2))).length + 1)
    [] (fun i hi => absurd hi (by simp)) hts
    (by
      have h9 := seqText_length_ge bid
        (((("tool_name".toList), tn) :: ps).map (fun p => tailText p.1 p.2))
      rw [List.length_map] at h9
      omega)
  simp only [List.nil_append, List.length_nil] at hrun
  rw [hrun]
  simp only [List.map_cons]
  rw [foldParts_tool tn _ none [] htne htc]
  rw [pyStrip_clean tn htc]
  rw [foldParts_run ps (some tn) []
    (fun p hp => ⟨(hps p hp).1, (hps p hp).2.1, (hps p hp).2.2.1, (hps p hp).2.2.2.1,
      (hps p hp).2.2.2.2.1⟩)
    (fun p hp q hq => absurd hq (List.not_mem_nil q))
    hnodup]
  simp

/- ------------------------------------------------------------------ -/
/- Claim theorems                                                       -/
/- ------------------------------------------------------------------ -/

/-- C9: content conservation: for every sequence of fed chunks, the
concatenation, in emission order, of the text carried by every emitted event
(plain text verbatim, blocks verbatim), followed by the text returned by the
final `flush`, is exactly the concatenation of all fed chunks — no character
is lost, duplicated or reordered. -/
theorem feed_flush_conserves_content (chunks : List (List Char)) :
    evsText (feedMany initState chunks).2 ++ (flush (feedMany initState chunks).1).1
      = chunks.flatten := by
  have h := feedMany_conserves chunks initState
  simpa [flush, initState] using h

/-- C8: for every parser state, `flush()` returns exactly the buffered text —
in particular a dangling, never-closed block comes back as leftover plain text,
not as an error or a block event — and leaves the parser in the initial state
(empty buffer, not in a block, nesting depth 0). -/
theorem flush_returns_buffer_and_resets (st : ParserState) :
    (flush st).1 = st.buffer ∧ (flush st).2 = initState :=
  ⟨rfl, rfl⟩

/-- C10: the orchestrator classifies a dispatched tool call solely by the
returned output string: the recorded status is `error` exactly when the output
starts with the character '❌', it is `success` exactly otherwise, and the
stream-interruption test of the streaming loop fires exactly on the same
condition. -/
theorem tool_status_by_output_xmark (out : List Char) :
    (toolResultStatus out = ("error".toList) ↔ pfx ("❌".toList) out = true)
    ∧ (toolResultStatus out = ("success".toList) ↔ pfx ("❌".toList) out = false)
    ∧ (interruptsStream out = true ↔ toolResultStatus out = ("error".toList)) := by
  unfold toolResultStatus interruptsStream
  cases h : pfx ("❌".toList) out <;> simp [h]

/-- C7: the follow-up stage of a streamed turn: when at least one tool call
was executed the message history is extended, for each executed call in order,
with the raw block as an assistant message and the rendered tool result
(status plus output) as a user message, and exactly one follow-up request is
issued (flag `true`); a turn with zero tool calls issues none and leaves the
history unchanged. -/
theorem after_stream_followup (msgs : List Msg) (outs : List (List Char × List Char)) :
    (afterStream msgs outs).2 = !outs.isEmpty
    ∧ (afterStream msgs outs).1 =
        msgs ++ (outs.map
          (fun p => [(("assistant".toList), p.1), (("user".toList), toolResultMessage p.2)])).flatten := by
  unfold afterStream
  cases outs with
  | nil => simp
  | cons a t =>
    rw [if_neg (by simp)]
    exact ⟨by simp, foldl_append_pairs _ (a :: t) msgs⟩

/-- C2: nesting correctness.  The input is arbitrary surrounding text `pre`,
then a block `nestedBlk steps` — the opening begin marker followed by
alternating filler text and inner begin/end markers, where the number of
`true` entries of `steps` is the number `k` of nested begin-marker
occurrences — then arbitrary trailing text `suf`.  The hypotheses say the
input contains exactly this block: begin/end markers occur in
`nestedBlk steps ++ suf` exactly at the structural positions (so fillers and
`suf` contain no marker occurrence, also none straddling a boundary), no
begin marker occurs inside `pre`, and the nesting depth — 1 after the opening
marker, stepped by the inner markers — stays at least 1 strictly before the
last marker and returns to exactly 0 at the final end marker.  Then one
single-chunk `feed` emits exactly one `RawToolBlock`, whose text is the
verbatim span from the opening begin marker to the structurally matching end
marker with all inner markers and filler included — emitted exactly when the
depth returns to 0 — surrounded only by plain-text events (the preceding text,
and the part of the trailing text the parser can already release), and the
parser is back out of the block at depth 0.  Moreover the parser state
invariant — depth at least 1 while inside a block and exactly 0 outside,
hence never negative — is preserved by every `feed` from every
invariant-satisfying state. -/
theorem nested_block_single_emission (pre suf : List Char) (steps : List (List Char × Bool))
    (hpre : ∀ i, i < pre.length →
      pfx TOOL_BEGIN ((pre ++ (nestedBlk steps ++ suf)).drop i) = false)
    (hoccB : ∀ i, i < (nestedBlk steps ++ suf).length →
      (pfx TOOL_BEGIN ((nestedBlk steps ++ suf).drop i) = true
        ↔ (i, true) ∈ ((0, true) : Nat × Bool) :: markerPos 17 steps))
    (hoccE : ∀ i, i < (nestedBlk steps ++ suf).length →
      (pfx TOOL_END ((nestedBlk steps ++ suf).drop i) = true
        ↔ (i, false) ∈ ((0, true) : Nat × Bool) :: markerPos 17 steps))
    (hbal : dAfter 1 (steps.map Prod.snd) = 0)
    (hpos : ∀ j, j < (steps.map Prod.snd).length →
      1 ≤ dAfter 1 ((steps.map Prod.snd).take j)) :
    (feed initState (pre ++ (nestedBlk steps ++ suf))).2
      = (if pre.isEmpty then ([] : List Ev)
          else [((none : Option (List Char)), pre)])
        ++ ((some (nestedBlk steps) : Option (List Char)), ([] : List Char))
          :: (if TOOL_BEGIN.length < suf.length
              then [((none : Option (List Char)),
                suf.take (suf.length - TOOL_BEGIN.length))]
              else [])
    ∧ (feed initState (pre ++ (nestedBlk steps ++ suf))).1
        = ⟨(if TOOL_BEGIN.length < suf.length
            then suf.drop (suf.length - TOOL_BEGIN.length) else suf), false, 0⟩
    ∧ (∀ st text, parserInv st →
        parserInv (feed st text).1 ∧ 0 ≤ (feed st text).1.nesting_depth) := by
  have hstepsne : steps ≠ [] := by
    intro hh
    subst hh
    simp [dAfter] at hbal
  have hlen2 : (nestedBlk steps ++ suf).length
      = (nestedBlk steps).length + suf.length := by simp
  have hblk17 : 17 ≤ (nestedBlk steps).length := by
    unfold nestedBlk
    simp [TB_length]
  have hoccB2 : ∀ i, pfx TOOL_BEGIN ((nestedBlk steps ++ suf).drop i) = true
      ↔ (i, true) ∈ ((0, true) : Nat × Bool) :: markerPos 17 steps := by
    intro i
    by_cases hi : i < (nestedBlk steps ++ suf).length
    · exact hoccB i hi
    · constructor
      · intro hp
        exfalso
        rw [List.drop_eq_nil_of_le (by omega)] at hp
        rw [pfx_nil_false _ (by decide)] at hp
        exact Bool.false_ne_true hp
      · intro hm
        exfalso
        rcases List.mem_cons.mp hm with h10 | h10
        · have h11 : i = 0 := congrArg Prod.fst h10
          omega
        · have h11 : i + mlen true ≤ endPos 17 steps := markerPos_ub steps 17 (i, true) h10
          rw [← blk_length, mlen_true] at h11
          omega
  have hoccE2 : ∀ i, pfx TOOL_END ((nestedBlk steps ++ suf).drop i) = true
      ↔ (i, false) ∈ ((0, true) : Nat × Bool) :: markerPos 17 steps := by
    intro i
    by_cases hi : i < (nestedBlk steps ++ suf).length
    · exact hoccE i hi
    · constructor
      · intro hp
        exfalso
        rw [List.drop_eq_nil_of_le (by omega)] at hp
        rw [pfx_nil_false _ (by decide)] at hp
        exact Bool.false_ne_true hp
      · intro hm
        exfalso
        rcases List.mem_cons.mp hm with h10 | h10
        · have h11 : (false : Bool) = true := congrArg Prod.snd h10
          exact Bool.false_ne_true h11
        · have h11 : i + mlen false ≤ endPos 17 steps :=
            markerPos_ub steps 17 (i, false) h10
          rw [← blk_length, mlen_false] at h11
          omega
  have hfind0 : pyFind (pre ++ (nestedBlk steps ++ suf)) TOOL_BEGIN 0 = some pre.length := by
    apply pyFind_found _ _ _ _ (by decide) (by omega)
    · intro j hj1 hj2
      exact hpre j hj2
    · rw [List.drop_left]
      rw [show nestedBlk steps ++ suf
          = TOOL_BEGIN ++ ((steps.map stepText).flatten ++ suf) from by
        simp [nestedBlk, List.append_assoc]]
      exact pfx_self_append _ _
  have hoccS : ∀ i, 17 ≤ i →
      ((pfx TOOL_BEGIN ((nestedBlk steps ++ suf).drop i) = true
          ↔ (i, true) ∈ markerPos 17 steps)
        ∧ (pfx TOOL_END ((nestedBlk steps ++ suf).drop i) = true
          ↔ (i, false) ∈ markerPos 17 steps)) := by
    intro i hi
    constructor
    · constructor
      · intro hp
        rcases List.mem_cons.mp ((hoccB2 i).mp hp) with h10 | h10
        · exfalso
          have h11 : i = 0 := congrArg Prod.fst h10
          omega
        · exact h10
      · intro hm
        exact (hoccB2 i).mpr (List.mem_cons_of_mem _ hm)
    · constructor
      · intro hp
        rcases List.mem_cons.mp ((hoccE2 i).mp hp) with h10 | h10
        · exfalso
          have h11 : i = 0 := congrArg Prod.fst h10
          omega
        · exact h10
      · intro hm
        exact (hoccE2 i).mpr (List.mem_cons_of_mem _ hm)
  have hscan : innerScan ((nestedBlk steps ++ suf).length + 1) (nestedBlk steps ++ suf) 1
        TOOL_BEGIN.length
      = .emit (nestedBlk steps) suf := by
    rw [TB_length]
    have h9 := scanGen (nestedBlk steps ++ suf) steps 17 1
      ((nestedBlk steps ++ suf).length + 1) hstepsne hoccS hbal hpos
      (by
        have h8 := steps_le_endPos steps 17
        rw [← blk_length] at h8
        omega)
    rw [← blk_length] at h9
    rw [List.take_left, List.drop_left] at h9
    exact h9
  have hsufB : pyFind suf TOOL_BEGIN 0 = none := by
    apply pyFind_none
    intro j _
    have hdropU : (nestedBlk steps ++ suf).drop ((nestedBlk steps).length + j)
        = suf.drop j := by
      rw [drop_append_ge _ _ _ (by omega)]
      congr 1
      omega
    cases hp : pfx TOOL_BEGIN (suf.drop j)
    · rfl
    · exfalso
      rw [← hdropU] at hp
      rcases List.mem_cons.mp ((hoccB2 _).mp hp) with h10 | h10
      · have h11 : (nestedBlk steps).length + j = 0 := congrArg Prod.fst h10
        omega
      · have h11 : (nestedBlk steps).length + j + mlen true ≤ endPos 17 steps :=
          markerPos_ub steps 17 ((nestedBlk steps).length + j, true) h10
        rw [← blk_length, mlen_true] at h11
        omega
  have hfeed : feed initState (pre ++ (nestedBlk steps ++ suf))
      = (⟨(if TOOL_BEGIN.length < suf.length
            then suf.drop (suf.length - TOOL_BEGIN.length) else suf), false, 0⟩,
         (if pre.isEmpty then ([] : List Ev) else [((none : Option (List Char)), pre)])
           ++ ((some (nestedBlk steps) : Option (List Char)), ([] : List Char))
             :: (if TOOL_BEGIN.length < suf.length
                 then [((none : Option (List Char)),
                   suf.take (suf.length - TOOL_BEGIN.length))]
                 else [])) := by
    unfold feed initState
    simp only [List.nil_append]
    rw [show (pre ++ (nestedBlk steps ++ suf)).length + 2
        = ((pre ++ (nestedBlk steps ++ suf)).length + 1) + 1 from rfl]
    rw [feedLoop_enter_gen _ _ _ pre.length rfl hfind0]
    dsimp only
    rw [List.take_left, List.drop_left]
    rw [feedLoop_emitStep _ _ _ (nestedBlk steps) suf rfl hscan]
    obtain ⟨F3, hF3⟩ : ∃ F3, (pre ++ (nestedBlk steps ++ suf)).length = F3 + 1 := by
      refine ⟨(pre ++ (nestedBlk steps ++ suf)).length - 1, ?_⟩
      have h9 : (pre ++ (nestedBlk steps ++ suf)).length
          = pre.length + ((nestedBlk steps).length + suf.length) := by simp
      omega
    rw [hF3]
    by_cases hsl : TOOL_BEGIN.length < suf.length
    · rw [feedLoop_term_long F3 _ _ rfl hsufB hsl]
      rw [if_pos hsl, if_pos hsl]
      simp
    · rw [feedLoop_term F3 _ _ rfl hsufB hsl]
      rw [if_neg hsl, if_neg hsl]
      simp
  refine ⟨?_, ?_, ?_⟩
  · rw [hfeed]
  · rw [hfeed]
  · intro st text h
    have h2 := feed_preserves_inv st text h
    refine ⟨h2, ?_⟩
    cases hin : (feed st text).1.in_tool
    · rw [h2.2 hin]
    · have h3 := h2.1 hin
      omega

/-- witness for C2: a block with one inner begin marker, filler text between
the markers, preceding text and trailing text.  The feed emits the preceding
text as plain text and the whole block — inner markers and filler included —
as one `RawToolBlock`; the short trailing text stays buffered. -/
theorem nested_block_single_emission_witness :
    (feed initState (("hi".toList)
        ++ (nestedBlk [(("A".toList), true), (([] : List Char), false),
              ((" B".toList), false)]
          ++ ("ok".toList)))).2
      = [((none : Option (List Char)), ("hi".toList)),
         ((some (nestedBlk [(("A".toList), true), (([] : List Char), false),
              ((" B".toList), false)]) : Option (List Char)), ([] : List Char))] := by
  have h := nested_block_single_emission ("hi".toList) ("ok".toList)
    [(("A".toList), true), (([] : List Char), false), ((" B".toList), false)]
    (by decide) (by decide) (by decide) (by decide) (by decide)
  rw [h.1]
  decide

/-- C1 (code bug): feeding the 96-character text
`TOOL_BEGIN TOOL_BEGIN TOOL_BEGIN TOOL_END TOOL_END TOOL_END` as one chunk
emits exactly one `RawToolBlock` covering the whole text and returns the
parser to the initial state, but feeding the same text split after the first
`TOOL_END` emits no event at all, leaves the parser stuck at nesting depth 1,
and `flush` then surfaces the entire text as leftover — the inner rescan of
`feed` re-counts already-counted markers without resetting `nesting_depth`,
so the event sequence depends on the chunking. -/
theorem parser_chunk_dependence_eval :
    (feed initState (TOOL_BEGIN ++ TOOL_BEGIN ++ TOOL_BEGIN ++ TOOL_END ++ TOOL_END ++ TOOL_END)).2 =
      [((some (TOOL_BEGIN ++ TOOL_BEGIN ++ TOOL_BEGIN ++ TOOL_END ++ TOOL_END ++ TOOL_END) :
        Option (List Char)), [])]
    ∧ (feed initState (TOOL_BEGIN ++ TOOL_BEGIN ++ TOOL_BEGIN ++ TOOL_END ++ TOOL_END ++ TOOL_END)).1 =
        initState
    ∧ (feed initState (TOOL_BEGIN ++ TOOL_BEGIN ++ TOOL_BEGIN ++ TOOL_END)).2 = []
    ∧ (feed (feed initState (TOOL_BEGIN ++ TOOL_BEGIN ++ TOOL_BEGIN ++ TOOL_END)).1 (TOOL_END ++ TOOL_END)).2 = []
    ∧ (feed (feed initState (TOOL_BEGIN ++ TOOL_BEGIN ++ TOOL_BEGIN ++ TOOL_END)).1 (TOOL_END ++ TOOL_END)).1.nesting_depth = 1
    ∧ (flush (feed (feed initState (TOOL_BEGIN ++ TOOL_BEGIN ++ TOOL_BEGIN ++ TOOL_END)).1 (TOOL_END ++ TOOL_END)).1).1 =
        TOOL_BEGIN ++ TOOL_BEGIN ++ TOOL_BEGIN ++ TOOL_END ++ TOOL_END ++ TOOL_END := by
  refine ⟨by decide, by decide, by decide, by decide, by decide, by decide⟩

/-- C3 (code bug): in a streamed response whose first chunk contains a tool
call that fails (here: an unknown tool, whose result string starts with '❌'
and therefore satisfies the stream-interruption test of src/llode.py line
1626), the orchestrator still consumes the next chunk of the same response and
executes the tool call it contains — the `break` leaves only the inner
per-chunk results loop, not the line loop, so the remainder of the streamed
response is not abandoned. -/
theorem stream_error_does_not_abandon_eval :
    interruptsStream (execute_tool regFix false blkNope) = true
    ∧ (streamTurn regFix false [blkNope, blkTodo]).toolOutputs =
        [(blkNope, ("❌ Unknown tool: nope".toList)),
          (blkTodo, ("Todo list updated successfully".toList))] := by
  refine ⟨by decide, by decide⟩

/-- C4 counterexample: `todo_write` modifies the repository (it writes
`llode_todo.json`), yet dispatching it while planning (restricted) mode is
active invokes its handler and returns the handler's success string — the
planning-mode gate consults only a fixed six-name list that omits
`todo_write`, so the claim "every mutating tool is never invoked and gets a
refusal error" is false. -/
theorem planning_gate_todo_write_runs :
    execute_tool regFix true blkTodo = ("Todo list updated successfully".toList)
    ∧ toolResultStatus (execute_tool regFix true blkTodo) = ("success".toList) := by
  refine ⟨by decide, by decide⟩

/-- C4 (amended): for every decoded tool call whose tool name is one of the
six hard-coded names `file_edit`, `file_move`, `file_delete`,
`search_replace`, `git_add`, `git_commit`, dispatching in planning mode
returns the fixed refusal message (an error result) regardless of the
registry, hence without invoking any handler. -/
theorem planning_gate_blocks_listed_tools (reg : Registry) (blk tn : List Char)
    (args : List (List Char × List Char))
    (hparse : parse_mime_tool_call blk = .ok (tn, args))
    (hmut : modifying_tools.contains tn = true) :
    execute_tool reg true blk = planningRefusal tn
    ∧ toolResultStatus (execute_tool reg true blk) = ("error".toList) := by
  unfold execute_tool
  rw [hparse]
  simp only [hmut, Bool.true_and, if_pos rfl]
  constructor
  · rfl
  · unfold toolResultStatus planningRefusal
    simp [pfx]

/-- witness for the amended C4: a concrete `file_edit` block dispatched in
planning mode against the fixture registry gets the fixed refusal. -/
theorem planning_gate_blocks_listed_tools_witness :
    execute_tool regFix true blkEdit = planningRefusal ("file_edit".toList)
    ∧ toolResultStatus (execute_tool regFix true blkEdit) = ("error".toList) :=
  planning_gate_blocks_listed_tools regFix blkEdit ("file_edit".toList)
    [(("path".toList), ("a".toList))] (by decide) (by decide)

/-- C6 counterexample: a block whose second section is structurally
inconsistent (no parameter-name declaration at all) does not fail decoding:
`parse_mime_tool_call` returns a DecodedToolCall that silently omits the bad
section. -/
theorem malformed_section_silently_skipped :
    parse_mime_tool_call blkMalformed = .ok (("read".toList), []) := by
  decide

/-- C6 (amended): the decoder rejects nothing as a malformed parameter
section; its only failures are a missing (or empty) `Boundary-ID` header and a
missing (or empty) `tool_name` field, with exactly these two error messages —
structurally inconsistent sections are silently dropped. -/
theorem decode_error_messages (s e : List Char)
    (h : parse_mime_tool_call s = .error e) :
    e = ("Missing Boundary-ID in tool call".toList)
    ∨ e = ("Missing tool_name in tool call".toList) := by
  unfold parse_mime_tool_call at h
  split at h
  · left
    injection h with h2
    exact h2.symm
  · split at h
    · right
      injection h with h2
      exact h2.symm
    · exact absurd h (by simp)

/-- witness for the amended C6: the empty block fails with the
missing-boundary message, which is one of the two admissible messages. -/
theorem decode_error_messages_witness :
    parse_mime_tool_call [] = .error ("Missing Boundary-ID in tool call".toList)
    ∧ (("Missing Boundary-ID in tool call".toList) =
          ("Missing Boundary-ID in tool call".toList)
        ∨ ("Missing Boundary-ID in tool call".toList) =
          ("Missing tool_name in tool call".toList)) :=
  ⟨by decide, decode_error_messages [] _ (by decide)⟩

/-- C5: round-trip decode, corrected.  The literal claim (every parameter value
not containing the boundary identifier is preserved exactly, including
leading/trailing whitespace and newlines) is false: the decoder strips
trailing whitespace of every value (`part.strip()` plus the trailing
blank-line pop).  The corrected statement: for every boundary identifier,
tool name and ordered parameter map such that the identifier and the names
are non-empty and structurally clean (no whitespace, dash or quote), no name
is `tool_name`, the names are pairwise distinct, and every value is
non-empty, does not contain the boundary identifier and does not end in
whitespace, encoding then decoding via `parse_mime_tool_call` returns exactly
the original `(tool_name, parameters)` pair — in particular values keep all
internal and leading whitespace and newlines. -/
theorem encode_decode_round_trip (bid tn : List Char) (ps : List (List Char × List Char))
    (hbid : bid ≠ [] ∧ ∀ c ∈ bid, cleanChar c)
    (htn : tn ≠ [] ∧ (∀ c ∈ tn, cleanChar c) ∧ containsSub bid tn = false)
    (hps : ∀ p ∈ ps, p.1 ≠ [] ∧ (∀ c ∈ p.1, cleanChar c) ∧ p.1 ≠ ("tool_name".toList)
      ∧ p.2 ≠ [] ∧ (∀ c ∈ p.2.reverse.take 1, ws c = false)
      ∧ containsSub bid p.2 = false)
    (hnodup : (ps.map Prod.fst).Nodup) :
    parse_mime_tool_call (encodeToolCall bid tn ps) = .ok (tn, ps) := by
  have hconv : ∀ (v : List Char), (∀ c ∈ v.reverse.take 1, ws c = false) →
      ∀ c, v.getLast? = some c → ws c = false := by
    intro v hv c hc
    rw [← List.head?_reverse] at hc
    cases hr : v.reverse with
    | nil => rw [hr] at hc; simp at hc
    | cons a t =>
      rw [hr] at hc
      have ha : a = c := by simpa using hc
      subst ha
      exact hv a (by rw [hr]; simp)
  unfold parse_mime_tool_call
  rw [pmtcHeader_encode bid tn ps hbid.1 hbid.2]
  rw [pmtcResult_encode bid tn ps hbid.1 hbid.2 htn.1 htn.2.1 htn.2.2
    (fun p hp => ⟨(hps p hp).1, (hps p hp).2.1, (hps p hp).2.2.1, (hps p hp).2.2.2.1,
      hconv p.2 (hps p hp).2.2.2.2.1, (hps p hp).2.2.2.2.2⟩)
    hnodup]
  rw [show ((some bid, 3) : Option (List Char) × Nat).1 = some bid from rfl]
  rw [show ((some tn, ps) : Option (List Char) × List (List Char × List Char)).1
      = some tn from rfl]
  rw [if_neg (by rw [truthyS_some_ne bid hbid.1]; simp)]
  rw [if_neg (by rw [truthyS_some_ne tn htn.1]; simp)]
  rfl

/-- C5 witness: a concrete round trip through the encoder and
`parse_mime_tool_call` in which the parameter value contains an internal
space and an internal newline, both preserved exactly. -/
theorem encode_decode_round_trip_witness :
    parse_mime_tool_call (encodeToolCall ("b7".toList) ("t1".toList)
        [(("pa".toList), ("x 1\ny".toList))])
      = .ok (("t1".toList), [(("pa".toList), ("x 1\ny".toList))]) :=
  encode_decode_round_trip ("b7".toList) ("t1".toList)
    [(("pa".toList), ("x 1\ny".toList))]
    (by decide) (by decide) (by decide) (by decide)

/-- C5 counterexample to the literal claim: the value ends in a newline and
does not contain the boundary identifier, yet decoding the encoded call
returns the value with the trailing newline stripped
(src/llode.py lines 1357 and 1375-1376), so the round trip is not the
identity. -/
theorem round_trip_not_exact :
    parse_mime_tool_call (encodeToolCall ("b7".toList) ("t1".toList)
        [(("pa".toList), ("x\n".toList))])
      = .ok (("t1".toList), [(("pa".toList), ("x".toList))])
    ∧ ("x\n".toList : List Char) ≠ ("x".toList) := by
  constructor
  · decide
  · decide

end Llode
